import Mathlib

/-!
Verification of the similarity-graph construction core of the
book-recommendation explorer (source: `src/app/page.tsx`).

The numeric type of the source (JS `number`) is modelled by the reals;
the five-dimensional sentiment profile, the cosine-similarity scorer,
the explanation generator, the static genre-similarity table, and the
full graph build (pair enumeration, descending sort, degree-capped
greedy selection, pruning, union-find connectivity repair) are embedded
below, each following the corresponding source function.
-/

open Classical

/-- The five sentiment dimensions attached to every book
(source `interface SentimentScores`). -/
structure SentimentScores where
  moody : ℝ
  scientific : ℝ
  optimistic : ℝ
  philosophical : ℝ
  adventurous : ℝ

namespace SentimentScores

/-- The component list `[a.moody, a.scientific, a.optimistic, a.philosophical,
a.adventurous]` built at the top of `calculateSimilarity`. -/
def vec (a : SentimentScores) : List ℝ :=
  [a.moody, a.scientific, a.optimistic, a.philosophical, a.adventurous]

end SentimentScores

/-- The `dotProduct` accumulation inside `calculateSimilarity`:
`aVec.reduce((sum, val, i) => sum + val * bVec[i], 0)`. -/
def dotProduct (a b : SentimentScores) : ℝ :=
  (List.zipWith (· * ·) a.vec b.vec).sum

/-- The radicand of a magnitude computation inside `calculateSimilarity`:
`aVec.reduce((sum, val) => sum + val * val, 0)`. -/
def sumSq (a : SentimentScores) : ℝ :=
  (a.vec.map (fun v => v * v)).sum

/-- The magnitude `Math.sqrt(aVec.reduce((sum, val) => sum + val * val, 0))` inside
`calculateSimilarity`. -/
noncomputable def magnitude (a : SentimentScores) : ℝ :=
  Real.sqrt (sumSq a)

/-- Source function `calculateSimilarity` (cosine similarity between two
sentiment profiles): returns `0` when either magnitude is `0`, otherwise
`dotProduct / (magnitudeA * magnitudeB)`. -/
noncomputable def calculateSimilarity (a b : SentimentScores) : ℝ :=
  if magnitude a = 0 ∨ magnitude b = 0 then 0
  else dotProduct a b / (magnitude a * magnitude b)

theorem dotProduct_expand (a b : SentimentScores) :
    dotProduct a b =
      a.moody * b.moody + a.scientific * b.scientific +
      a.optimistic * b.optimistic + a.philosophical * b.philosophical +
      a.adventurous * b.adventurous := by
  simp [dotProduct, SentimentScores.vec]
  ring

theorem sumSq_expand (a : SentimentScores) :
    sumSq a =
      a.moody * a.moody + a.scientific * a.scientific +
      a.optimistic * a.optimistic + a.philosophical * a.philosophical +
      a.adventurous * a.adventurous := by
  simp [sumSq, SentimentScores.vec]
  ring

theorem sumSq_nonneg (a : SentimentScores) : 0 ≤ sumSq a := by
  rw [sumSq_expand]
  nlinarith [mul_self_nonneg a.moody, mul_self_nonneg a.scientific,
    mul_self_nonneg a.optimistic, mul_self_nonneg a.philosophical,
    mul_self_nonneg a.adventurous]

theorem magnitude_nonneg (a : SentimentScores) : 0 ≤ magnitude a :=
  Real.sqrt_nonneg _

theorem magnitude_eq_zero_iff (a : SentimentScores) :
    magnitude a = 0 ↔ sumSq a = 0 := by
  unfold magnitude
  constructor
  · intro h
    have h' : sumSq a ≤ 0 := Real.sqrt_eq_zero'.mp h
    exact le_antisymm h' (sumSq_nonneg a)
  · intro h
    rw [h, Real.sqrt_zero]

theorem dotProduct_comm (a b : SentimentScores) :
    dotProduct a b = dotProduct b a := by
  rw [dotProduct_expand, dotProduct_expand]
  ring

/-- Cauchy–Schwarz for the five-component profiles. -/
theorem dotProduct_sq_le (a b : SentimentScores) :
    dotProduct a b ^ 2 ≤ sumSq a * sumSq b := by
  rw [dotProduct_expand, sumSq_expand, sumSq_expand]
  nlinarith [sq_nonneg (a.moody * b.scientific - a.scientific * b.moody),
    sq_nonneg (a.moody * b.optimistic - a.optimistic * b.moody),
    sq_nonneg (a.moody * b.philosophical - a.philosophical * b.moody),
    sq_nonneg (a.moody * b.adventurous - a.adventurous * b.moody),
    sq_nonneg (a.scientific * b.optimistic - a.optimistic * b.scientific),
    sq_nonneg (a.scientific * b.philosophical - a.philosophical * b.scientific),
    sq_nonneg (a.scientific * b.adventurous - a.adventurous * b.scientific),
    sq_nonneg (a.optimistic * b.philosophical - a.philosophical * b.optimistic),
    sq_nonneg (a.optimistic * b.adventurous - a.adventurous * b.optimistic),
    sq_nonneg (a.philosophical * b.adventurous - a.adventurous * b.philosophical)]

theorem abs_dotProduct_le (a b : SentimentScores) :
    |dotProduct a b| ≤ magnitude a * magnitude b := by
  have h1 : magnitude a * magnitude b = Real.sqrt (sumSq a * sumSq b) := by
    unfold magnitude
    rw [Real.sqrt_mul (sumSq_nonneg a)]
  rw [h1, ← Real.sqrt_sq_eq_abs]
  exact Real.sqrt_le_sqrt (by simpa [sq] using dotProduct_sq_le a b)

/-- C7 (claim): `calculateSimilarity` is symmetric and its value always lies
in the interval `[-1, 1]`. -/
theorem claim_C7_similarity_symmetric_and_bounded (a b : SentimentScores) :
    calculateSimilarity a b = calculateSimilarity b a ∧
      -1 ≤ calculateSimilarity a b ∧ calculateSimilarity a b ≤ 1 := by
  constructor
  · unfold calculateSimilarity
    rw [dotProduct_comm, mul_comm (magnitude a) (magnitude b)]
    exact if_congr or_comm rfl rfl
  · unfold calculateSimilarity
    split
    · norm_num
    · rename_i h
      push_neg at h
      have ha : 0 < magnitude a := lt_of_le_of_ne (magnitude_nonneg a) (Ne.symm h.1)
      have hb : 0 < magnitude b := lt_of_le_of_ne (magnitude_nonneg b) (Ne.symm h.2)
      have hm : 0 < magnitude a * magnitude b := mul_pos ha hb
      have habs : |dotProduct a b / (magnitude a * magnitude b)| ≤ 1 := by
        rw [abs_div, abs_of_pos hm]
        exact (div_le_one hm).mpr (by simpa using abs_dotProduct_le a b)
      exact abs_le.mp habs

/-- C8 (claim): for a profile of strictly positive magnitude,
`calculateSimilarity a a = 1`. -/
theorem claim_C8_self_similarity_one (a : SentimentScores)
    (h : 0 < magnitude a) : calculateSimilarity a a = 1 := by
  have hz : ¬ (magnitude a = 0 ∨ magnitude a = 0) := by
    intro hc
    rcases hc with hc | hc <;> exact absurd hc (ne_of_gt h)
  have hs : 0 < sumSq a := by
    have := (magnitude_eq_zero_iff a).not
    rcases lt_or_eq_of_le (sumSq_nonneg a) with hlt | heq
    · exact hlt
    · exact absurd ((magnitude_eq_zero_iff a).mpr heq.symm) (ne_of_gt h)
  unfold calculateSimilarity
  rw [if_neg hz]
  have hd : dotProduct a a = sumSq a := by
    rw [dotProduct_expand, sumSq_expand]
  have hm : magnitude a * magnitude a = sumSq a :=
    Real.mul_self_sqrt (sumSq_nonneg a)
  rw [hd, hm]
  exact div_self (ne_of_gt hs)

/-- The all-zero sentiment profile. -/
def zeroScores : SentimentScores := ⟨0, 0, 0, 0, 0⟩

/-- C8 witness: the profile `(1,0,0,0,0)` has positive magnitude and
self-similarity exactly `1`. -/
theorem claim_C8_self_similarity_one_witness :
    0 < magnitude ⟨1, 0, 0, 0, 0⟩ ∧
      calculateSimilarity ⟨1, 0, 0, 0, 0⟩ ⟨1, 0, 0, 0, 0⟩ = 1 := by
  have h : 0 < magnitude ⟨1, 0, 0, 0, 0⟩ := by
    unfold magnitude
    rw [sumSq_expand]
    norm_num
  exact ⟨h, claim_C8_self_similarity_one _ h⟩

/-- C4 (claim): whenever either profile has zero magnitude,
`calculateSimilarity` returns exactly `0`; in particular the all-zero
profile is a valid input whose similarity with anything is `0`. -/
theorem claim_C4_zero_magnitude_similarity_zero (a b : SentimentScores)
    (h : magnitude a = 0 ∨ magnitude b = 0) :
    calculateSimilarity a b = 0 := by
  unfold calculateSimilarity
  exact if_pos h

/-- C4 witness: the all-zero profile has zero magnitude and its similarity
with `(1,0,0,0,0)` is exactly `0`. -/
theorem claim_C4_zero_magnitude_similarity_zero_witness :
    magnitude zeroScores = 0 ∧
      calculateSimilarity zeroScores ⟨1, 0, 0, 0, 0⟩ = 0 := by
  have h : magnitude zeroScores = 0 := by
    unfold magnitude
    rw [sumSq_expand]
    simp [zeroScores]
  exact ⟨h, claim_C4_zero_magnitude_similarity_zero _ _ (Or.inl h)⟩

/-- The `{weight, reason}` records returned by `calculateGenreSimilarity`.
The weights are exact decimal literals in the source, modelled as rationals. -/
structure GenreSim where
  weight : ℚ
  reason : String
deriving DecidableEq

/-- The static nested lookup table `similarities` declared inside
`calculateGenreSimilarity`, transcribed entry by entry. -/
def genreSimilarities : List (String × List (String × GenreSim)) :=
  [("Sci-Fi",
     [("Non-Fiction", ⟨0.7, "Scientific exploration and intellectual curiosity"⟩),
      ("Literary Fiction", ⟨0.6, "Dystopian themes and social commentary"⟩),
      ("Fantasy", ⟨0.5, "World-building and speculative elements"⟩),
      ("Mystery", ⟨0.4, "Problem-solving and discovery"⟩),
      ("Philosophy", ⟨0.75, "Existential questions and human nature"⟩)]),
   ("Non-Fiction",
     [("Philosophy", ⟨0.85, "Pursuit of knowledge and understanding"⟩),
      ("Literary Fiction", ⟨0.5, "Human condition and historical context"⟩),
      ("Mystery", ⟨0.45, "Investigation and analysis"⟩),
      ("Fantasy", ⟨0.3, "Cultural mythology and archetypes"⟩)]),
   ("Literary Fiction",
     [("Philosophy", ⟨0.8, "Deep character study and moral questions"⟩),
      ("Mystery", ⟨0.55, "Psychological exploration"⟩),
      ("Fantasy", ⟨0.45, "Narrative storytelling traditions"⟩)]),
   ("Fantasy",
     [("Mystery", ⟨0.5, "Quest narratives and hidden truths"⟩),
      ("Philosophy", ⟨0.55, "Mythological wisdom and hero journeys"⟩)]),
   ("Mystery",
     [("Philosophy", ⟨0.5, "Search for truth and meaning"⟩)])]

/-- One directed table access `similarities[genreA]?.[genreB]`. -/
def genreLookup (genreA genreB : String) : Option GenreSim :=
  (genreSimilarities.lookup genreA).bind (fun inner => inner.lookup genreB)

/-- Source function `calculateGenreSimilarity`: identical genres short-circuit
to `{1, "Same genre"}`; otherwise the directed lookup is tried in both orders
(JS `||`) and defaults to `{0.3, "Shared literary heritage"}`. -/
def calculateGenreSimilarity (genreA genreB : String) : GenreSim :=
  if genreA = genreB then ⟨1, "Same genre"⟩
  else ((genreLookup genreA genreB).or (genreLookup genreB genreA)).getD
    ⟨0.3, "Shared literary heritage"⟩

theorem lookup_mem {β : Type} {l : List (String × β)} {k : String} {v : β}
    (h : l.lookup k = some v) : (k, v) ∈ l := by
  induction l with
  | nil => simp [List.lookup] at h
  | cons p t ih =>
    obtain ⟨a, b⟩ := p
    rw [List.lookup_cons] at h
    cases hb : (k == a) with
    | true =>
      rw [hb] at h
      simp at h
      have hk : k = a := eq_of_beq hb
      subst hk
      subst h
      exact List.mem_cons_self _ _
    | false =>
      rw [hb] at h
      exact List.mem_cons_of_mem _ (ih h)

theorem genreLookup_key_mem {A B : String} {x : GenreSim}
    (h : genreLookup A B = some x) :
    A ∈ genreSimilarities.map Prod.fst := by
  unfold genreLookup at h
  cases houter : genreSimilarities.lookup A with
  | none => rw [houter] at h; simp at h
  | some inner =>
    have := lookup_mem houter
    exact List.mem_map_of_mem Prod.fst this

theorem genreLookup_not_both (A B : String) :
    genreLookup A B = none ∨ genreLookup B A = none := by
  by_cases h1 : genreLookup A B = none
  · exact Or.inl h1
  by_cases h2 : genreLookup B A = none
  · exact Or.inr h2
  obtain ⟨x, hx⟩ := Option.ne_none_iff_exists'.mp h1
  obtain ⟨y, hy⟩ := Option.ne_none_iff_exists'.mp h2
  have hA := genreLookup_key_mem hx
  have hB := genreLookup_key_mem hy
  have hall : ∀ a ∈ genreSimilarities.map Prod.fst,
      ∀ b ∈ genreSimilarities.map Prod.fst,
      genreLookup a b = none ∨ genreLookup b a = none := by decide
  exact hall A hA B hB

theorem calculateGenreSimilarity_comm (A B : String) :
    calculateGenreSimilarity A B = calculateGenreSimilarity B A := by
  unfold calculateGenreSimilarity
  by_cases hAB : A = B
  · subst hAB
    rfl
  · rw [if_neg hAB, if_neg (Ne.symm hAB)]
    rcases genreLookup_not_both A B with h | h
    · rw [h, Option.none_or, Option.or_none]
    · rw [h, Option.none_or, Option.or_none]

/-- C9 counterexample: the code's reason strings are "Same genre" and
"Shared literary heritage", not the claim's "Same category" and
"Shared heritage". -/
theorem claim_C9_counterexample :
    (calculateGenreSimilarity "Sci-Fi" "Sci-Fi").reason ≠ "Same category" ∧
      (calculateGenreSimilarity "Romance" "Horror").reason ≠ "Shared heritage" := by
  decide

/-- C9 amended: `calculateGenreSimilarity` is symmetric; identical genres
return weight `1` with reason "Same genre"; distinct genre pairs absent from
the static table (in both orders) return weight `0.3` with reason
"Shared literary heritage". -/
theorem claim_C9_genre_similarity_amended :
    (∀ A B, calculateGenreSimilarity A B = calculateGenreSimilarity B A) ∧
    (∀ A, calculateGenreSimilarity A A = ⟨1, "Same genre"⟩) ∧
    (∀ A B, A ≠ B → genreLookup A B = none → genreLookup B A = none →
      calculateGenreSimilarity A B = ⟨0.3, "Shared literary heritage"⟩) := by
  refine ⟨calculateGenreSimilarity_comm, ?_, ?_⟩
  · intro A
    unfold calculateGenreSimilarity
    rw [if_pos rfl]
  · intro A B hne h1 h2
    unfold calculateGenreSimilarity
    rw [if_neg hne, h1, h2]
    rfl

/-- C9 amended witness: the pair ("Romance", "Horror") is distinct, absent
from the table in both orders, and maps to the default record. -/
theorem claim_C9_genre_similarity_amended_witness :
    ("Romance" ≠ "Horror" ∧ genreLookup "Romance" "Horror" = none ∧
        genreLookup "Horror" "Romance" = none) ∧
      calculateGenreSimilarity "Romance" "Horror" =
        ⟨0.3, "Shared literary heritage"⟩ :=
  ⟨⟨by decide, by decide, by decide⟩,
    claim_C9_genre_similarity_amended.2.2 "Romance" "Horror"
      (by decide) (by decide) (by decide)⟩

/-- Book node: identifier, display attributes, and the sentiment profile
(source `interface BookNode`; the d3 layout fields play no role in the
algorithm and are omitted). -/
structure BookNode where
  id : String
  title : String
  author : String
  genre : String
  year : ℤ
  coverUrl : Option String := none
  description : Option String := none
  sentimentScores : SentimentScores

/-- One record of the `dimensions` array inside `generateConnectionReason`. -/
structure DimEntry where
  name : String
  diff : ℝ
  avg : ℝ

/-- The `dimensions` array built by `generateConnectionReason`. -/
noncomputable def connectionDimensions (a b : SentimentScores) : List DimEntry :=
  [⟨"moody atmosphere", |a.moody - b.moody|, (a.moody + b.moody) / 2⟩,
   ⟨"scientific rigor", |a.scientific - b.scientific|, (a.scientific + b.scientific) / 2⟩,
   ⟨"optimistic outlook", |a.optimistic - b.optimistic|, (a.optimistic + b.optimistic) / 2⟩,
   ⟨"philosophical depth", |a.philosophical - b.philosophical|, (a.philosophical + b.philosophical) / 2⟩,
   ⟨"adventurous spirit", |a.adventurous - b.adventurous|, (a.adventurous + b.adventurous) / 2⟩]

/-- Model of `Array.prototype.sort` with a numeric comparator: a stable sort that
keeps `x` before `y` whenever `cmp x y ≤ 0`. -/
noncomputable def jsSortBy {α : Type} (cmp : α → α → ℝ) (l : List α) : List α :=
  l.mergeSort (fun x y => decide (cmp x y ≤ 0))

/-- The tail of `generateConnectionReason` after the sort: take the top two
dimensions, push a clause for each whose average exceeds `0.5`, and either
fall back to the generic percentage sentence or join the clauses. -/
noncomputable def renderExplanation (sorted : List DimEntry) (similarity : ℝ) :
    String :=
  let topMatches := sorted.take 2
  let reasons : List String :=
    (if (topMatches.getD 0 ⟨"", 0, 0⟩).avg > 0.5 then
      ["Both share strong " ++ (topMatches.getD 0 ⟨"", 0, 0⟩).name] else []) ++
    (if (topMatches.getD 1 ⟨"", 0, 0⟩).avg > 0.5 then
      ["similar " ++ (topMatches.getD 1 ⟨"", 0, 0⟩).name] else [])
  if reasons = [] then
    "These works share a " ++ toString (round (similarity * 100)) ++
      "% thematic similarity based on their emotional and intellectual profiles."
  else
    String.intercalate " and " reasons ++ ". Overall " ++
      toString (round (similarity * 100)) ++ "% thematic match."

/-- Source function `generateConnectionReason`: sorts the dimension records
with the comparator `(x, y) => (x.diff - y.diff) + (y.avg - x.avg) * 0.5`
and renders the clauses. -/
noncomputable def generateConnectionReason (bookA bookB : BookNode)
    (similarity : ℝ) : String :=
  let a := bookA.sentimentScores
  let b := bookB.sentimentScores
  let sorted :=
    jsSortBy (fun x y => (x.diff - y.diff) + (y.avg - x.avg) * 0.5)
      (connectionDimensions a b)
  renderExplanation sorted similarity

/-- The explanation rule as the spec states it: rank the dimensions
ascending (stably) by the combined score `diff − 0.5 · average`, take the
top two, include a clause for a top dimension exactly when its average
exceeds `0.5`, and fall back to the generic percentage sentence when
neither qualifies. -/
noncomputable def specExplanation (bookA bookB : BookNode)
    (similarity : ℝ) : String :=
  let dims := connectionDimensions bookA.sentimentScores bookB.sentimentScores
  let ranked :=
    dims.mergeSort (fun x y =>
      decide (x.diff - 0.5 * x.avg ≤ y.diff - 0.5 * y.avg))
  renderExplanation ranked similarity

/-- C6 (claim): `generateConnectionReason` implements exactly the spec's
rule — ascending ranking by `diff − 0.5 · average`, top two dimensions, a
clause exactly for those with average above `0.5`, and the generic
percentage fallback otherwise. -/
theorem claim_C6_explanation_matches_spec (bookA bookB : BookNode) (s : ℝ) :
    generateConnectionReason bookA bookB s = specExplanation bookA bookB s := by
  unfold generateConnectionReason specExplanation jsSortBy
  have hle : (fun (x y : DimEntry) =>
        decide ((x.diff - y.diff) + (y.avg - x.avg) * 0.5 ≤ 0))
      = fun x y => decide (x.diff - 0.5 * x.avg ≤ y.diff - 0.5 * y.avg) := by
    funext x y
    apply decide_eq_decide.mpr
    constructor <;> intro h <;> linarith
  rw [hle]

/-- A produced edge (source `interface GraphLink`; the d3 simulation fields
play no role in the algorithm). -/
structure GraphLink where
  source : String
  target : String
  similarityWeight : ℝ
  reason : String

/-- A candidate pair record `{i, j, sim}` of the build. -/
structure PairRec where
  i : Nat
  j : Nat
  sim : ℝ

/-- Fallback book value used to model always-in-range JS array indexing. -/
def defaultBook : BookNode := ⟨"", "", "", "", 0, none, none, zeroScores⟩

/-- Identifier of the node at a given index. -/
def idOf (nodes : List BookNode) (i : Nat) : String :=
  (nodes.getD i defaultBook).id

/-- The `allPairs` list: every unordered pair `(i, j)` with `i < j`, paired with the
similarity of the two profiles (the double loop of the build). -/
noncomputable def allPairsOf (nodes : List BookNode) : List PairRec :=
  (List.range nodes.length).flatMap (fun i =>
    ((List.range nodes.length).drop (i + 1)).map (fun j =>
      ⟨i, j, calculateSimilarity (nodes.getD i defaultBook).sentimentScores
        (nodes.getD j defaultBook).sentimentScores⟩))

/-- The sort `allPairs.sort((a, b) => b.sim - a.sim)`: candidates ordered by
similarity, highest first. -/
noncomputable def sortedPairsOf (nodes : List BookNode) : List PairRec :=
  jsSortBy (fun a b => b.sim - a.sim) (allPairsOf nodes)

/-- The target `targetTotalConnections = Math.floor(nodes.length * 1.5)`. -/
def targetTotalConnections (n : Nat) : Nat :=
  Nat.floor ((n : ℚ) * 1.5)

/-- The greedy first pass of the build: walk the sorted candidates keeping a
per-node connection count, accept a pair only when both endpoints are below
`maxConnectionsPerNode = 3`, and break once the selected count reaches the
target. -/
def greedySelect (target : Nat) :
    List PairRec → (Nat → Nat) → List PairRec → List PairRec
  | [], _, selected => selected
  | pair :: rest, count, selected =>
    if count pair.i < 3 ∧ count pair.j < 3 then
      let selected' := selected ++ [pair]
      let count' := fun x =>
        if x = pair.i then count pair.i + 1
        else if x = pair.j then count pair.j + 1 else count x
      if target ≤ selected'.length then selected'
      else greedySelect target rest count' selected'
    else greedySelect target rest count selected

/-- The `selectedPairs` list after the greedy first pass. -/
noncomputable def selectedPairsOf (nodes : List BookNode) : List PairRec :=
  greedySelect (targetTotalConnections nodes.length) (sortedPairsOf nodes)
    (fun _ => 0) []

/-- The `prunedPairs` list: the selected pairs re-sorted by weight and cut to
`Math.max(1, Math.ceil(length * 0.7))` (drop the weakest 30%). -/
noncomputable def prunedPairsOf (nodes : List BookNode) : List PairRec :=
  let selectedPairs := jsSortBy (fun a b => b.sim - a.sim) (selectedPairsOf nodes)
  let edgesToKeep := max 1 (Nat.ceil ((selectedPairs.length : ℚ) * 0.7))
  selectedPairs.take edgesToKeep

/-- The links created from the pruned pairs (before connectivity repair). -/
noncomputable def basicLinksOf (nodes : List BookNode) : List GraphLink :=
  (prunedPairsOf nodes).map (fun pair =>
    ⟨idOf nodes pair.i, idOf nodes pair.j, pair.sim,
      generateConnectionReason (nodes.getD pair.i defaultBook)
        (nodes.getD pair.j defaultBook) pair.sim⟩)

/-- Union-find `find` with path compression (source `const find = (x) => ...`),
written with explicit fuel; every call of the build passes the node count,
which always suffices (`ufFind_roots`). -/
def ufFind : Nat → (Nat → Nat) → Nat → ((Nat → Nat) × Nat)
  | 0, p, x => (p, p x)
  | fuel + 1, p, x =>
    if p x = x then (p, x)
    else
      let r := ufFind fuel p (p x)
      (fun y => if y = x then r.2 else r.1 y, r.2)

/-- Union-find `union` (source `const union = (x, y) => ...`): find both roots and
graft the first onto the second when they differ. -/
def ufUnion (n : Nat) (p : Nat → Nat) (x y : Nat) : Nat → Nat :=
  let fx := ufFind n p x
  let fy := ufFind n fx.1 y
  if fx.2 ≠ fy.2 then fun z => if z = fx.2 then fy.2 else fy.1 z else fy.1

/-- The `nodeIdToIndex` lookup (a JS `Map` built from `[node.id, index]` entries;
`get` returns the most recently inserted binding of a key). -/
def nodeIdToIndex (nodes : List BookNode) (id : String) : Option Nat :=
  (List.range nodes.length).foldl
    (fun acc i => if (nodes.getD i defaultBook).id = id then some i else acc)
    none

/-- The union pass over the retained links (`for (const link of links)`). -/
def unionLinks (n : Nat) (nodes : List BookNode) (links : List GraphLink)
    (p : Nat → Nat) : Nat → Nat :=
  links.foldl (fun p link =>
    match nodeIdToIndex nodes link.source, nodeIdToIndex nodes link.target with
    | some sourceIdx, some targetIdx => ufUnion n p sourceIdx targetIdx
    | _, _ => p) p

/-- The `searchedIdx` computation: index of the highlighted book; `0` when nothing is
highlighted (including the JS-falsy empty string) or the id is unknown. -/
def searchedIdxOf (nodes : List BookNode) (highlightedBookId : Option String) :
    Nat :=
  match highlightedBookId with
  | some q => if q = "" then 0 else (nodeIdToIndex nodes q).getD 0
  | none => 0

/-- The scan populating `disconnectedComponents`: the roots of all nodes,
skipping the searched component, deduplicated in insertion order. -/
def collectComponents (n : Nat) (sroot : Nat) (p : Nat → Nat) :
    (Nat → Nat) × List Nat :=
  (List.range n).foldl (fun acc i =>
    let f := ufFind n acc.1 i
    if f.2 ≠ sroot ∧ f.2 ∉ acc.2 then (f.1, acc.2 ++ [f.2]) else (f.1, acc.2))
    (p, [])

/-- The `nodesInComponent` scan: the indices whose current root is `c`. -/
def collectMembers (n : Nat) (c : Nat) (p : Nat → Nat) :
    (Nat → Nat) × List Nat :=
  (List.range n).foldl (fun acc idx =>
    let f := ufFind n acc.1 idx
    if f.2 = c then (f.1, acc.2 ++ [idx]) else (f.1, acc.2))
    (p, [])

/-- The `bestNodeIdx` / `bestSimilarity` scan over a component's members
(sentinel `-1` for both). -/
noncomputable def bestMember (nodes : List BookNode) (searchedIdx : Nat)
    (members : List Nat) : Int × ℝ :=
  members.foldl (fun best nodeIdx =>
    let sim := calculateSimilarity
      (nodes.getD nodeIdx defaultBook).sentimentScores
      (nodes.getD searchedIdx defaultBook).sentimentScores
    if sim > best.2 then (Int.ofNat nodeIdx, sim) else best)
    (-1, -1)

/-- One iteration of the repair loop: gather the component's members, pick
the member most similar to the searched book, and (when found) push the
repair edge and union the component into the searched component. -/
noncomputable def repairStep (n : Nat) (nodes : List BookNode)
    (searchedIdx : Nat) (acc : (Nat → Nat) × List GraphLink) (c : Nat) :
    (Nat → Nat) × List GraphLink :=
  let m := collectMembers n c acc.1
  let best := bestMember nodes searchedIdx m.2
  if best.1 ≠ -1 then
    (ufUnion n m.1 best.1.toNat searchedIdx,
      acc.2 ++ [⟨idOf nodes best.1.toNat, idOf nodes searchedIdx, best.2,
        generateConnectionReason (nodes.getD best.1.toNat defaultBook)
          (nodes.getD searchedIdx defaultBook) best.2⟩])
  else (m.1, acc.2)

/-- The union-find state after the union pass over the pruned links
(`parent` initialised to the identity). -/
noncomputable def p1Of (nodes : List BookNode) : Nat → Nat :=
  unionLinks nodes.length nodes (basicLinksOf nodes) (fun i => i)

/-- The call `searchedComponent = find(searchedIdx)` (value and compressed state). -/
noncomputable def searchedFindOf (nodes : List BookNode) (hl : Option String) :
    (Nat → Nat) × Nat :=
  ufFind nodes.length (p1Of nodes) (searchedIdxOf nodes hl)

/-- State and insertion-ordered root list of `disconnectedComponents`. -/
noncomputable def componentsStateOf (nodes : List BookNode)
    (hl : Option String) : (Nat → Nat) × List Nat :=
  collectComponents nodes.length (searchedFindOf nodes hl).2
    (searchedFindOf nodes hl).1

/-- The final union-find state and link list after the repair loop. -/
noncomputable def repairStateOf (nodes : List BookNode) (hl : Option String) :
    (Nat → Nat) × List GraphLink :=
  (componentsStateOf nodes hl).2.foldl
    (repairStep nodes.length nodes (searchedIdxOf nodes hl))
    ((componentsStateOf nodes hl).1, basicLinksOf nodes)

/-- The link list returned by the build. -/
noncomputable def repairedLinksOf (nodes : List BookNode)
    (hl : Option String) : List GraphLink :=
  (repairStateOf nodes hl).2

/-- Source memo `bookGraphData`: empty input yields the empty graph,
otherwise the nodes are copied and the selected, pruned and repaired link
list is attached. -/
noncomputable def bookGraphData (genreBooks : List BookNode)
    (highlightedBookId : Option String) :
    List BookNode × List GraphLink :=
  if genreBooks.length = 0 then ([], [])
  else
    let nodes := genreBooks.map (fun book => book)
    (nodes, repairedLinksOf nodes highlightedBookId)

/-- Number of distinct union-find roots after the union pass over the
pruned links (the connected components after pruning). -/
noncomputable def componentsAfterPruning (nodes : List BookNode) : Nat :=
  (((List.range nodes.length).map
    (fun i => (ufFind nodes.length (p1Of nodes) i).2)).dedup).length

/-- Number of selected or retained pairs incident to a node index. -/
def pairDegree (pairs : List PairRec) (x : Nat) : Nat :=
  pairs.countP (fun p => decide (p.i = x ∨ p.j = x))

/-- Connectivity via an edge list: the reflexive-transitive closure of
"some link joins the two identifiers (in either direction)". -/
def LinkConn (links : List GraphLink) : String → String → Prop :=
  Relation.ReflTransGen (fun u v =>
    ∃ l ∈ links, (l.source = u ∧ l.target = v) ∨ (l.source = v ∧ l.target = u))

/-- All five sentiment components lie in `[0, 1]` (the data model's range
for sentiment vectors). -/
def ScoresInRange (s : SentimentScores) : Prop :=
  (0 ≤ s.moody ∧ s.moody ≤ 1) ∧ (0 ≤ s.scientific ∧ s.scientific ≤ 1) ∧
  (0 ≤ s.optimistic ∧ s.optimistic ≤ 1) ∧
  (0 ≤ s.philosophical ∧ s.philosophical ≤ 1) ∧
  (0 ≤ s.adventurous ∧ s.adventurous ≤ 1)

/-- Relation `RootedN p x r k`: from `x`, following parents reaches the fixpoint `r`
in exactly `k` steps. -/
inductive RootedN (p : Nat → Nat) : Nat → Nat → Nat → Prop where
  | root (x : Nat) : p x = x → RootedN p x x 0
  | step (x r k : Nat) : p x ≠ x → RootedN p (p x) r k → RootedN p x r (k + 1)

/-- Index `x` has canonical root `r` under the parent map `p`. -/
def Rooted (p : Nat → Nat) (x r : Nat) : Prop := ∃ k, RootedN p x r k

/-- Well-formed parent maps on `[0, n)`: closed below `n` and with every
chain terminating. -/
def UFGood (n : Nat) (p : Nat → Nat) : Prop :=
  (∀ i, i < n → p i < n) ∧ (∀ i, i < n → ∃ r, Rooted p i r)

theorem RootedN.isRoot {p : Nat → Nat} {x r k : Nat}
    (h : RootedN p x r k) : p r = r := by
  induction h with
  | root _ h => exact h
  | step _ _ _ _ _ ih => exact ih

theorem RootedN.lt {n : Nat} {p : Nat → Nat} {x r k : Nat}
    (hp : ∀ i, i < n → p i < n) (hx : x < n) (h : RootedN p x r k) : r < n := by
  induction h with
  | root _ _ => exact hx
  | step y _ _ _ hr ih => exact ih (hp y hx)

theorem RootedN.det' {p : Nat → Nat} {x r r' k k' : Nat}
    (h : RootedN p x r k) (h' : RootedN p x r' k') : r = r' ∧ k = k' := by
  induction h generalizing k' with
  | root y hy =>
    cases h' with
    | root _ _ => exact ⟨rfl, rfl⟩
    | step _ _ _ hne _ => exact absurd hy hne
  | step y s m hne hrec ih =>
    cases h' with
    | root _ hy => exact absurd hy hne
    | step _ _ m' _ hrec' =>
      obtain ⟨h1, h2⟩ := ih hrec'
      exact ⟨h1, by omega⟩

theorem Rooted.det {p : Nat → Nat} {x r r' : Nat}
    (h : Rooted p x r) (h' : Rooted p x r') : r = r' := by
  obtain ⟨k, h⟩ := h
  obtain ⟨k', h'⟩ := h'
  exact (h.det' h').1

theorem RootedN.iterate {p : Nat → Nat} {x r k : Nat}
    (h : RootedN p x r k) :
    (∀ i, i < k → p (p^[i] x) ≠ p^[i] x) ∧ p^[k] x = r := by
  induction h with
  | root _ _ => exact ⟨fun i hi => absurd hi (Nat.not_lt_zero i), rfl⟩
  | step y s m hne hrec ih =>
    refine ⟨?_, ?_⟩
    · intro i hi
      match i with
      | 0 => simpa using hne
      | i + 1 =>
        rw [Function.iterate_succ_apply]
        exact ih.1 i (by omega)
    · rw [Function.iterate_succ_apply]
      exact ih.2

/-- A terminating parent chain below `n` makes fewer than `n` steps: the
visited nodes are pairwise distinct. -/
theorem RootedN.length_lt {n : Nat} {p : Nat → Nat} {x r k : Nat}
    (hp : ∀ i, i < n → p i < n) (hx : x < n) (h : RootedN p x r k) : k < n := by
  obtain ⟨hmid, hend⟩ := h.iterate
  have hchain : ∀ i, p^[i] x < n := by
    intro i
    induction i with
    | zero => simpa using hx
    | succ i ih =>
      rw [Function.iterate_succ_apply']
      exact hp _ ih
  have hroot : p r = r := h.isRoot
  by_contra hcon
  push_neg at hcon
  have hinj : Set.InjOn (fun i => p^[i] x) ↑(Finset.range (k + 1)) := by
    intro a ha b hb hab
    simp only [Finset.coe_range, Set.mem_Iio] at ha hb
    by_contra hne
    rcases Nat.lt_or_ge a b with hlt | hge
    · have hper : ∀ t, p^[a + t] x = p^[b + t] x := by
        intro t
        induction t with
        | zero => simpa using hab
        | succ t ih =>
          have h1 : a + (t + 1) = (a + t) + 1 := by omega
          have h2 : b + (t + 1) = (b + t) + 1 := by omega
          rw [h1, h2, Function.iterate_succ_apply', Function.iterate_succ_apply',
            ih]
      have hkey : p^[a + (k - b)] x = r := by
        rw [hper (k - b)]
        have : b + (k - b) = k := by omega
        rw [this, hend]
      have hlt2 : a + (k - b) < k := by omega
      have := hmid _ hlt2
      rw [hkey] at this
      exact this hroot
    · rcases Nat.lt_or_ge b a with hlt' | hge'
      · have hper : ∀ t, p^[b + t] x = p^[a + t] x := by
          intro t
          induction t with
          | zero => simpa using hab.symm
          | succ t ih =>
            have h1 : b + (t + 1) = (b + t) + 1 := by omega
            have h2 : a + (t + 1) = (a + t) + 1 := by omega
            rw [h1, h2, Function.iterate_succ_apply',
              Function.iterate_succ_apply', ih]
        have hkey : p^[b + (k - a)] x = r := by
          rw [hper (k - a)]
          have : a + (k - a) = k := by omega
          rw [this, hend]
        have hlt2 : b + (k - a) < k := by omega
        have := hmid _ hlt2
        rw [hkey] at this
        exact this hroot
      · omega
  have hmaps : ∀ a ∈ Finset.range (k + 1), p^[a] x ∈ Finset.range n := by
    intro a _
    exact Finset.mem_range.mpr (hchain a)
  have hcard := Finset.card_le_card_of_injOn _ hmaps hinj
  simp only [Finset.card_range] at hcard
  omega

theorem Rooted.self_iff {p : Nat → Nat} {c : Nat} :
    Rooted p c c ↔ p c = c := by
  constructor
  · rintro ⟨k, h⟩
    cases h with
    | root _ h => exact h
    | step _ _ m hne hrec =>
      obtain ⟨hmid, _⟩ := (RootedN.step c c m hne hrec).iterate
      have h0 := hmid 0 (by omega)
      have hr : p c = c := (RootedN.step c c m hne hrec).isRoot
      simp at h0
      exact absurd hr h0
  · intro h
    exact ⟨0, RootedN.root c h⟩

/-- Rewriting one non-root entry of a chain node to its own root preserves
every canonical root. -/
theorem Rooted.compress {p : Nat → Nat} {x r : Nat}
    (hr : p r = r) (hx : Rooted p x r) :
    ∀ y s, Rooted p y s →
      Rooted (fun z => if z = x then r else p z) y s := by
  intro y s hy
  obtain ⟨m, hy⟩ := hy
  induction hy with
  | root w hw =>
    by_cases hwx : w = x
    · subst hwx
      have hrw : r = w := hx.det (Rooted.self_iff.mpr hw)
      refine ⟨0, RootedN.root w ?_⟩
      simp [hrw]
    · exact ⟨0, RootedN.root w (by simp [hwx, hw])⟩
  | step w s' m hne hrec ih =>
    have hs' : Rooted p (p w) s' := ⟨m, hrec⟩
    by_cases hwx : w = x
    · subst hwx
      have hsr : s' = r := by
        have h1 : Rooted p w s' := ⟨m + 1, RootedN.step w s' m hne hrec⟩
        exact h1.det hx
      rw [hsr]
      have hrne : r ≠ w := fun hcon => hne (hcon ▸ hr)
      refine ⟨1, RootedN.step w r 0 ?_ ?_⟩
      · show (if w = w then r else p w) ≠ w
        rw [if_pos rfl]
        exact hrne
      · show RootedN _ (if w = w then r else p w) r 0
        rw [if_pos rfl]
        refine RootedN.root r ?_
        show (if r = w then r else p r) = r
        by_cases hrx : r = w
        · rw [if_pos hrx]
        · rw [if_neg hrx]
          exact hr
    · obtain ⟨m', ih'⟩ := ih
      refine ⟨m' + 1, RootedN.step w s' m' ?_ ?_⟩
      · simpa [hwx] using hne
      · simpa [hwx] using ih'

/-- Grafting root `a` onto a different root `b` sends every root `a` to `b`
and keeps the others. -/
theorem Rooted.link {p : Nat → Nat} {a b : Nat}
    (ha : p a = a) (hb : p b = b) (hab : a ≠ b) :
    ∀ y s, Rooted p y s →
      Rooted (fun z => if z = a then b else p z) y
        (if s = a then b else s) := by
  intro y s hy
  obtain ⟨m, hy⟩ := hy
  induction hy with
  | root w hw =>
    by_cases hwa : w = a
    · subst hwa
      rw [if_pos rfl]
      refine ⟨1, RootedN.step w b 0 ?_ ?_⟩
      · simpa using fun hc => hab hc.symm
      · simp only [if_pos rfl]
        refine RootedN.root b ?_
        simp [Ne.symm hab, hb]
    · rw [if_neg hwa]
      exact ⟨0, RootedN.root w (by simp [hwa, hw])⟩
  | step w s' m hne hrec ih =>
    have hwa : w ≠ a := by
      intro hcon
      subst hcon
      exact hne ha
    obtain ⟨m', ih'⟩ := ih
    refine ⟨m' + 1, RootedN.step w _ m' ?_ ?_⟩
    · simpa [hwa] using hne
    · simpa [hwa] using ih'

theorem ufFind_spec {fuel : Nat} : ∀ {p : Nat → Nat} {x r k : Nat},
    RootedN p x r k → k ≤ fuel →
    (ufFind fuel p x).2 = r ∧
    (∀ i, (ufFind fuel p x).1 i = p i ∨ (ufFind fuel p x).1 i = r) ∧
    (∀ y s, Rooted p y s → Rooted (ufFind fuel p x).1 y s) := by
  induction fuel with
  | zero =>
    intro p x r k h hk
    have hk0 : k = 0 := Nat.le_zero.mp hk
    subst hk0
    cases h with
    | root _ hw =>
      exact ⟨hw, fun i => Or.inl rfl, fun y s hy => hy⟩
  | succ fuel ih =>
    intro p x r k h hk
    by_cases hpx : p x = x
    · have hrx : r = x ∧ k = 0 := by
        cases h with
        | root _ _ => exact ⟨rfl, rfl⟩
        | step _ _ _ hne _ => exact absurd hpx hne
      obtain ⟨hr, _⟩ := hrx
      have heq : ufFind (fuel + 1) p x = (p, x) := by
        simp only [ufFind]
        rw [if_pos hpx]
      rw [heq, hr]
      exact ⟨rfl, fun i => Or.inl rfl, fun y s hy => hy⟩
    · have hk1 : ∃ m, k = m + 1 ∧ RootedN p (p x) r m := by
        cases h with
        | root _ hw => exact absurd hw hpx
        | step _ _ m hne hrec => exact ⟨m, rfl, hrec⟩
      obtain ⟨m, hkm, hrec⟩ := hk1
      have hm : m ≤ fuel := by omega
      obtain ⟨h2, hentry, hpres⟩ := ih hrec hm
      have heq : ufFind (fuel + 1) p x =
          (fun y => if y = x then (ufFind fuel p (p x)).2
            else (ufFind fuel p (p x)).1 y, (ufFind fuel p (p x)).2) := by
        simp only [ufFind]
        rw [if_neg hpx]
      have hfst : ∀ i, (ufFind (fuel + 1) p x).1 i
          = if i = x then r else (ufFind fuel p (p x)).1 i := by
        intro i
        rw [heq, h2]
      have hsnd : (ufFind (fuel + 1) p x).2 = r := by
        rw [heq, h2]
      refine ⟨hsnd, ?_, ?_⟩
      · intro i
        rw [hfst i]
        by_cases hix : i = x
        · rw [if_pos hix]
          exact Or.inr rfl
        · rw [if_neg hix]
          rcases hentry i with he | he
          · exact Or.inl he
          · exact Or.inr he
      · intro y s hy
        have hy1 := hpres y s hy
        have hxr : Rooted (ufFind fuel p (p x)).1 x r := hpres x r ⟨k, h⟩
        have hroot : (ufFind fuel p (p x)).1 r = r := by
          rcases hentry r with he | he
          · rw [he]
            exact h.isRoot
          · exact he
        have hcomp := Rooted.compress hroot hxr y s hy1
        have hfun : (ufFind (fuel + 1) p x).1
            = fun z => if z = x then r else (ufFind fuel p (p x)).1 z := by
          funext z
          rw [hfst z]
        rw [hfun]
        exact hcomp

/-- Canonical roots agree between two parent maps on `[0, n)`. -/
def SameRoots (n : Nat) (p q : Nat → Nat) : Prop :=
  ∀ y, y < n → ∀ s, Rooted p y s ↔ Rooted q y s

theorem SameRoots.rfl {n : Nat} {p : Nat → Nat} : SameRoots n p p :=
  fun _ _ _ => Iff.rfl

theorem SameRoots.trans {n : Nat} {p q r : Nat → Nat}
    (h1 : SameRoots n p q) (h2 : SameRoots n q r) : SameRoots n p r :=
  fun y hy s => (h1 y hy s).trans (h2 y hy s)

/-- Running `ufFind` with fuel `n` on a well-formed state: returns the canonical
root, keeps the state well-formed, and changes no canonical root. -/
theorem ufFind_roots {n : Nat} {p : Nat → Nat} (hg : UFGood n p) {x : Nat}
    (hx : x < n) :
    Rooted p x (ufFind n p x).2 ∧ UFGood n (ufFind n p x).1 ∧
      SameRoots n p (ufFind n p x).1 := by
  obtain ⟨r, hr⟩ := hg.2 x hx
  obtain ⟨k, hk⟩ := hr
  have hkn : k < n := RootedN.length_lt hg.1 hx hk
  obtain ⟨h2, hentry, hpres⟩ := ufFind_spec hk (Nat.le_of_lt hkn)
  have hrn : r < n := RootedN.lt hg.1 hx hk
  refine ⟨h2 ▸ ⟨k, hk⟩, ⟨?_, ?_⟩, ?_⟩
  · intro i hi
    rcases hentry i with he | he
    · rw [he]
      exact hg.1 i hi
    · rw [he]
      exact hrn
  · intro i hi
    obtain ⟨s, hs⟩ := hg.2 i hi
    exact ⟨s, hpres i s hs⟩
  · intro z hz s
    constructor
    · exact hpres z s
    · intro hq
      obtain ⟨s', hs'⟩ := hg.2 z hz
      have := hpres z s' hs'
      rw [hq.det this]
      exact hs'

/-- Running `ufUnion` on a well-formed state: keeps the state well-formed and maps
every canonical root through `if s = rx then ry else s`. -/
theorem ufUnion_spec {n : Nat} {p : Nat → Nat} {x y : Nat}
    (hg : UFGood n p) (hx : x < n) (hy : y < n) {rx ry : Nat}
    (hrx : Rooted p x rx) (hry : Rooted p y ry) :
    UFGood n (ufUnion n p x y) ∧
      ∀ z, z < n → ∀ s, Rooted p z s →
        Rooted (ufUnion n p x y) z (if s = rx then ry else s) := by
  obtain ⟨hfx2, hg1, hsame1⟩ := ufFind_roots hg hx
  have hfx2' : (ufFind n p x).2 = rx := hfx2.det hrx
  have hry1 : Rooted (ufFind n p x).1 y ry := (hsame1 y hy ry).mp hry
  obtain ⟨hfy2, hg2, hsame2⟩ := ufFind_roots hg1 hy
  have hfy2' : (ufFind n (ufFind n p x).1 y).2 = ry := hfy2.det hry1
  have hsame : SameRoots n p (ufFind n (ufFind n p x).1 y).1 :=
    hsame1.trans hsame2
  have hrxn : rx < n := by
    obtain ⟨k, hk⟩ := hrx
    exact RootedN.lt hg.1 hx hk
  have hryn : ry < n := by
    obtain ⟨k, hk⟩ := hry
    exact RootedN.lt hg.1 hy hk
  have hprx : p rx = rx := by
    obtain ⟨k, hk⟩ := hrx
    exact hk.isRoot
  have hpry : p ry = ry := by
    obtain ⟨k, hk⟩ := hry
    exact hk.isRoot
  have hq2rx : (ufFind n (ufFind n p x).1 y).1 rx = rx :=
    Rooted.self_iff.mp ((hsame rx hrxn rx).mp (Rooted.self_iff.mpr hprx))
  have hq2ry : (ufFind n (ufFind n p x).1 y).1 ry = ry :=
    Rooted.self_iff.mp ((hsame ry hryn ry).mp (Rooted.self_iff.mpr hpry))
  by_cases hne : rx = ry
  · have huf : ufUnion n p x y = (ufFind n (ufFind n p x).1 y).1 := by
      simp only [ufUnion]
      rw [hfx2', hfy2']
      simp [hne]
    rw [huf]
    refine ⟨hg2, ?_⟩
    intro z hz s hs
    have hite : (if s = rx then ry else s) = s := by
      by_cases hsx : s = rx
      · rw [if_pos hsx, hsx, hne]
      · rw [if_neg hsx]
    rw [hite]
    exact (hsame z hz s).mp hs
  · have huf : ufUnion n p x y =
        fun z => if z = rx then ry else (ufFind n (ufFind n p x).1 y).1 z := by
      simp only [ufUnion]
      rw [hfx2', hfy2']
      simp [hne]
    have hlink := Rooted.link hq2rx hq2ry hne
    rw [huf]
    refine ⟨⟨?_, ?_⟩, ?_⟩
    · intro i hi
      by_cases hirx : i = rx
      · show (if i = rx then ry else _) < n
        rw [if_pos hirx]
        exact hryn
      · show (if i = rx then ry else (ufFind n (ufFind n p x).1 y).1 i) < n
        rw [if_neg hirx]
        exact hg2.1 i hi
    · intro i hi
      obtain ⟨s, hs⟩ := hg2.2 i hi
      exact ⟨if s = rx then ry else s, hlink i s hs⟩
    · intro z hz s hs
      exact hlink z s ((hsame z hz s).mp hs)

/-- Two indices lie in the same union-find class. -/
def rootEq (p : Nat → Nat) (a b : Nat) : Prop :=
  ∃ r, Rooted p a r ∧ Rooted p b r

theorem rootEq.refl {p : Nat → Nat} {a r : Nat} (h : Rooted p a r) :
    rootEq p a a := ⟨r, h, h⟩

theorem rootEq.swap {p : Nat → Nat} {a b : Nat} (h : rootEq p a b) :
    rootEq p b a := by
  obtain ⟨r, h1, h2⟩ := h
  exact ⟨r, h2, h1⟩

theorem rootEq.chain {p : Nat → Nat} {a b c : Nat}
    (h1 : rootEq p a b) (h2 : rootEq p b c) : rootEq p a c := by
  obtain ⟨r, ha, hb⟩ := h1
  obtain ⟨r', hb', hc⟩ := h2
  exact ⟨r, ha, (hb.det hb') ▸ hc⟩

theorem LinkConn.of_mem {links : List GraphLink} {l : GraphLink}
    (h : l ∈ links) : LinkConn links l.source l.target :=
  Relation.ReflTransGen.single ⟨l, h, Or.inl ⟨rfl, rfl⟩⟩

theorem LinkConn.symm {links : List GraphLink} {u v : String}
    (h : LinkConn links u v) : LinkConn links v u := by
  refine Relation.ReflTransGen.symmetric ?_ h
  rintro a b ⟨l, hl, hd⟩
  exact ⟨l, hl, hd.symm⟩

theorem LinkConn.mono {links links' : List GraphLink} {u v : String}
    (hsub : links ⊆ links') (h : LinkConn links u v) : LinkConn links' u v := by
  refine Relation.ReflTransGen.mono ?_ h
  rintro a b ⟨l, hl, hd⟩
  exact ⟨l, hsub hl, hd⟩

theorem LinkConn.append_left {links add : List GraphLink} {u v : String}
    (h : LinkConn links u v) : LinkConn (links ++ add) u v :=
  h.mono (by intro l hl; exact List.mem_append_left _ hl)

theorem nodeIdToIndex_go_some {nodes : List BookNode} {q : String} :
    ∀ (l : List Nat) (acc : Option Nat) (i : Nat),
      l.foldl (fun acc j =>
        if (nodes.getD j defaultBook).id = q then some j else acc) acc = some i →
      (i ∈ l ∧ (nodes.getD i defaultBook).id = q) ∨ acc = some i := by
  intro l
  induction l with
  | nil => intro acc i h; exact Or.inr h
  | cons a t ih =>
    intro acc i h
    simp only [List.foldl_cons] at h
    rcases ih _ i h with ⟨hm, hid⟩ | hacc
    · exact Or.inl ⟨List.mem_cons_of_mem _ hm, hid⟩
    · by_cases hq : (nodes.getD a defaultBook).id = q
      · rw [if_pos hq] at hacc
        have : a = i := by injection hacc
        exact Or.inl ⟨this ▸ List.mem_cons_self _ _, this ▸ hq⟩
      · rw [if_neg hq] at hacc
        exact Or.inr hacc

/-- A successful `nodeIdToIndex` lookup returns an in-range index whose
node carries the looked-up identifier. -/
theorem nodeIdToIndex_some {nodes : List BookNode} {q : String} {i : Nat}
    (h : nodeIdToIndex nodes q = some i) :
    i < nodes.length ∧ idOf nodes i = q := by
  rcases nodeIdToIndex_go_some (List.range nodes.length) none i h with ⟨hm, hid⟩ | hacc
  · exact ⟨List.mem_range.mp hm, hid⟩
  · exact absurd hacc (by simp)

theorem nodeIdToIndex_go_none {nodes : List BookNode} {q : String} :
    ∀ (l : List Nat) (acc : Option Nat),
      (∀ j ∈ l, (nodes.getD j defaultBook).id ≠ q) →
      l.foldl (fun acc j =>
        if (nodes.getD j defaultBook).id = q then some j else acc) acc = acc := by
  intro l
  induction l with
  | nil => intro acc _; rfl
  | cons a t ih =>
    intro acc hall
    simp only [List.foldl_cons]
    rw [if_neg (hall a (List.mem_cons_self _ _)), ih _ (fun j hj => hall j (List.mem_cons_of_mem _ hj))]

/-- An identifier carried by no node is not found. -/
theorem nodeIdToIndex_none {nodes : List BookNode} {q : String}
    (h : q ∉ nodes.map BookNode.id) : nodeIdToIndex nodes q = none := by
  unfold nodeIdToIndex
  apply nodeIdToIndex_go_none
  intro j hj hid
  apply h
  have hjr : j < nodes.length := List.mem_range.mp hj
  have : nodes.getD j defaultBook ∈ nodes := by
    rw [List.getD_eq_getElem _ _ hjr]
    exact List.getElem_mem _
  exact hid ▸ List.mem_map_of_mem BookNode.id this

/-- With pairwise-distinct identifiers, looking up a node's own identifier
returns its index. -/
theorem nodeIdToIndex_go_unique {nodes : List BookNode} {q : String} {i : Nat} :
    ∀ (l : List Nat) (acc : Option Nat),
      i ∈ l → (nodes.getD i defaultBook).id = q →
      (∀ j ∈ l, (nodes.getD j defaultBook).id = q → j = i) →
      l.foldl (fun acc j =>
        if (nodes.getD j defaultBook).id = q then some j else acc) acc = some i := by
  intro l
  induction l with
  | nil =>
    intro acc hmem _ _
    exact absurd hmem (List.not_mem_nil i)
  | cons a t ih =>
    intro acc hmem hq huniq
    simp only [List.foldl_cons]
    by_cases hat : (nodes.getD a defaultBook).id = q
    · have ha : a = i := huniq a (List.mem_cons_self _ _) hat
      subst ha
      by_cases hit : a ∈ t
      · exact ih _ hit hq (fun j hj hjq => huniq j (List.mem_cons_of_mem _ hj) hjq)
      · rw [if_pos hat]
        exact nodeIdToIndex_go_none t _ (fun j hj hjq =>
          hit (huniq j (List.mem_cons_of_mem _ hj) hjq ▸ hj))
    · have hmemt : i ∈ t := by
        rcases List.mem_cons.mp hmem with hia | hit
        · exact absurd (hia ▸ hq) hat
        · exact hit
      rw [if_neg hat]
      exact ih _ hmemt hq (fun j hj hjq => huniq j (List.mem_cons_of_mem _ hj) hjq)

/-- Identifiers are injective on indices when the id list has no
duplicates. -/
theorem idOf_inj {nodes : List BookNode}
    (hnodup : (nodes.map BookNode.id).Nodup) {i j : Nat}
    (hi : i < nodes.length) (hj : j < nodes.length)
    (h : idOf nodes i = idOf nodes j) : i = j := by
  have hi' : i < (nodes.map BookNode.id).length := by simpa using hi
  have hj' : j < (nodes.map BookNode.id).length := by simpa using hj
  have hgi : (nodes.map BookNode.id).get ⟨i, hi'⟩
      = (nodes.map BookNode.id).get ⟨j, hj'⟩ := by
    have h1 : (nodes.map BookNode.id)[i] = idOf nodes i := by
      rw [List.getElem_map]
      unfold idOf
      rw [List.getD_eq_getElem _ _ hi]
    have h2 : (nodes.map BookNode.id)[j] = idOf nodes j := by
      rw [List.getElem_map]
      unfold idOf
      rw [List.getD_eq_getElem _ _ hj]
    simpa [h1, h2] using h
  have := List.nodup_iff_injective_get.mp hnodup hgi
  simpa using congrArg Fin.val this

/-- With pairwise-distinct identifiers, looking up a node's own identifier
returns its index. -/
theorem nodeIdToIndex_of_nodup {nodes : List BookNode}
    (hnodup : (nodes.map BookNode.id).Nodup) {i : Nat}
    (hi : i < nodes.length) :
    nodeIdToIndex nodes (idOf nodes i) = some i := by
  unfold nodeIdToIndex
  exact nodeIdToIndex_go_unique (List.range nodes.length) none
    (List.mem_range.mpr hi) rfl
    (fun j hj hjq => idOf_inj hnodup (List.mem_range.mp hj) hi hjq)

/-- Every enumerated candidate pair satisfies `i < j < n`. -/
theorem allPairsOf_bounds {nodes : List BookNode} :
    ∀ pr ∈ allPairsOf nodes, pr.i < pr.j ∧ pr.j < nodes.length := by
  intro pr hpr
  unfold allPairsOf at hpr
  rw [List.mem_flatMap] at hpr
  obtain ⟨i, hi, hmem⟩ := hpr
  rw [List.mem_map] at hmem
  obtain ⟨j, hj, heq⟩ := hmem
  rw [List.mem_drop_iff_getElem] at hj
  obtain ⟨k, hk, hjk⟩ := hj
  rw [List.getElem_range] at hjk
  subst heq
  simp only [List.length_range] at hk
  show i < j ∧ j < nodes.length
  omega

/-- Every sorted candidate pair satisfies `i < j < n`. -/
theorem sortedPairsOf_bounds {nodes : List BookNode} :
    ∀ pr ∈ sortedPairsOf nodes, pr.i < pr.j ∧ pr.j < nodes.length := by
  intro pr hpr
  unfold sortedPairsOf jsSortBy at hpr
  exact allPairsOf_bounds pr (List.mem_mergeSort.mp hpr)

theorem greedySelect_mem {target : Nat} :
    ∀ (cands : List PairRec) (cnt : Nat → Nat) (acc : List PairRec),
      ∀ pr ∈ greedySelect target cands cnt acc, pr ∈ cands ∨ pr ∈ acc := by
  intro cands
  induction cands with
  | nil =>
    intro cnt acc pr hpr
    exact Or.inr hpr
  | cons pair rest ih =>
    intro cnt acc pr hpr
    unfold greedySelect at hpr
    by_cases hc : cnt pair.i < 3 ∧ cnt pair.j < 3
    · rw [if_pos hc] at hpr
      by_cases ht : target ≤ (acc ++ [pair]).length
      · rw [if_pos ht] at hpr
        rcases List.mem_append.mp hpr with hm | hm
        · exact Or.inr hm
        · exact Or.inl (List.mem_cons.mpr (Or.inl (List.mem_singleton.mp hm)))
      · rw [if_neg ht] at hpr
        rcases ih _ _ pr hpr with hm | hm
        · exact Or.inl (List.mem_cons_of_mem _ hm)
        · rcases List.mem_append.mp hm with hm' | hm'
          · exact Or.inr hm'
          · exact Or.inl (List.mem_cons.mpr (Or.inl (List.mem_singleton.mp hm')))
    · rw [if_neg hc] at hpr
      rcases ih _ _ pr hpr with hm | hm
      · exact Or.inl (List.mem_cons_of_mem _ hm)
      · exact Or.inr hm

theorem greedySelect_length {target : Nat} :
    ∀ (cands : List PairRec) (cnt : Nat → Nat) (acc : List PairRec),
      acc.length < target →
      (greedySelect target cands cnt acc).length ≤ target := by
  intro cands
  induction cands with
  | nil =>
    intro cnt acc hlt
    exact Nat.le_of_lt hlt
  | cons pair rest ih =>
    intro cnt acc hlt
    unfold greedySelect
    by_cases hc : cnt pair.i < 3 ∧ cnt pair.j < 3
    · rw [if_pos hc]
      by_cases ht : target ≤ (acc ++ [pair]).length
      · rw [if_pos ht]
        simp only [List.length_append, List.length_singleton]
        omega
      · rw [if_neg ht]
        apply ih
        push_neg at ht
        exact ht
    · rw [if_neg hc]
      exact ih _ _ hlt

/-- Appending one pair increments the degree of exactly its endpoints. -/
theorem pairDegree_append (l : List PairRec) (q : PairRec) (y : Nat) :
    pairDegree (l ++ [q]) y
      = pairDegree l y + (if q.i = y ∨ q.j = y then 1 else 0) := by
  unfold pairDegree
  rw [List.countP_append]
  congr 1
  simp [List.countP_cons]

/-- The greedy-selection degree invariant: when the connection counter
agrees with the accumulated degrees and both are at most 3, every node
keeps degree at most 3 in the final selection. -/
theorem greedySelect_degree {target : Nat} :
    ∀ (cands : List PairRec) (cnt : Nat → Nat) (acc : List PairRec),
      (∀ x, pairDegree acc x = cnt x) →
      (∀ x, cnt x ≤ 3) →
      ∀ x, pairDegree (greedySelect target cands cnt acc) x ≤ 3 := by
  intro cands
  induction cands with
  | nil =>
    intro cnt acc heq hle x
    unfold greedySelect
    rw [heq x]
    exact hle x
  | cons pair rest ih =>
    intro cnt acc heq hle x
    unfold greedySelect
    by_cases hc : cnt pair.i < 3 ∧ cnt pair.j < 3
    · rw [if_pos hc]
      have heq' : ∀ y, pairDegree (acc ++ [pair]) y =
          (if y = pair.i then cnt pair.i + 1
            else if y = pair.j then cnt pair.j + 1 else cnt y) := by
        intro y
        rw [pairDegree_append, heq y]
        by_cases hyi : y = pair.i
        · rw [if_pos (Or.inl hyi.symm), if_pos hyi, hyi]
        · by_cases hyj : y = pair.j
          · rw [if_pos (Or.inr hyj.symm), if_neg hyi, if_pos hyj, hyj]
          · rw [if_neg ?_, if_neg hyi, if_neg hyj]
            · rfl
            · rintro (hcon | hcon)
              · exact hyi hcon.symm
              · exact hyj hcon.symm
      have hle' : ∀ y, (if y = pair.i then cnt pair.i + 1
          else if y = pair.j then cnt pair.j + 1 else cnt y) ≤ 3 := by
        intro y
        by_cases hyi : y = pair.i
        · rw [if_pos hyi]
          omega
        · by_cases hyj : y = pair.j
          · rw [if_neg hyi, if_pos hyj]
            omega
          · rw [if_neg hyi, if_neg hyj]
            exact hle y
      by_cases ht : target ≤ (acc ++ [pair]).length
      · rw [if_pos ht]
        rw [heq' x]
        exact hle' x
      · rw [if_neg ht]
        exact ih _ _ heq' hle' x
    · rw [if_neg hc]
      exact ih _ _ heq hle x

theorem allPairsOf_nil_of_le_one {nodes : List BookNode}
    (h : nodes.length ≤ 1) : allPairsOf nodes = [] := by
  unfold allPairsOf
  have h0 : nodes.length = 0 ∨ nodes.length = 1 := by omega
  rcases h0 with h0 | h0 <;> rw [h0] <;> rfl

theorem selectedPairsOf_mem {nodes : List BookNode} :
    ∀ pr ∈ selectedPairsOf nodes, pr ∈ allPairsOf nodes := by
  intro pr hpr
  unfold selectedPairsOf at hpr
  rcases greedySelect_mem _ _ _ pr hpr with hm | hm
  · unfold sortedPairsOf jsSortBy at hm
    exact List.mem_mergeSort.mp hm
  · exact absurd hm (List.not_mem_nil pr)

theorem selectedPairsOf_le_target {nodes : List BookNode} :
    (selectedPairsOf nodes).length ≤ targetTotalConnections nodes.length := by
  by_cases h1 : nodes.length ≤ 1
  · have hempty : sortedPairsOf nodes = [] := by
      unfold sortedPairsOf jsSortBy
      rw [allPairsOf_nil_of_le_one h1]
      exact List.mergeSort_nil
    unfold selectedPairsOf
    rw [hempty]
    exact Nat.zero_le _
  · push_neg at h1
    have htpos : 0 < targetTotalConnections nodes.length := by
      unfold targetTotalConnections
      have : (1 : ℚ) ≤ (nodes.length : ℚ) * 1.5 := by
        have : (2 : ℚ) ≤ (nodes.length : ℚ) := by
          exact_mod_cast h1
        nlinarith
      have := Nat.le_floor (n := 1) (by exact_mod_cast this)
      omega
    unfold selectedPairsOf
    exact greedySelect_length _ _ _ (by simpa using htpos)

theorem prune_arith (s : ℕ) :
    min (max 1 (Nat.ceil ((s : ℚ) * 0.7))) s = Nat.ceil ((0.7 : ℚ) * s) := by
  rcases Nat.eq_zero_or_pos s with h0 | hpos
  · subst h0
    norm_num
  · have hc1 : 1 ≤ Nat.ceil ((s : ℚ) * 0.7) := by
      rw [Nat.one_le_iff_ne_zero, ← Nat.pos_iff_ne_zero]
      rw [Nat.ceil_pos]
      have : (1 : ℚ) ≤ (s : ℚ) := by exact_mod_cast hpos
      nlinarith
    have hcs : Nat.ceil ((s : ℚ) * 0.7) ≤ s := by
      rw [Nat.ceil_le]
      have : (0 : ℚ) ≤ (s : ℚ) := by positivity
      nlinarith
    rw [max_eq_right hc1, min_eq_left hcs, mul_comm]

/-- C2's pruning formula: the retained edge count equals
`ceil(0.7 * min(selected, target))`. -/
theorem prunedPairsOf_length (nodes : List BookNode) :
    (prunedPairsOf nodes).length =
      Nat.ceil ((0.7 : ℚ) * (min (selectedPairsOf nodes).length
        (targetTotalConnections nodes.length) : ℕ)) := by
  rw [min_eq_left selectedPairsOf_le_target]
  unfold prunedPairsOf jsSortBy
  rw [List.length_take, List.length_mergeSort]
  exact prune_arith (selectedPairsOf nodes).length

theorem prunedPairsOf_mem {nodes : List BookNode} :
    ∀ pr ∈ prunedPairsOf nodes, pr ∈ allPairsOf nodes := by
  intro pr hpr
  unfold prunedPairsOf jsSortBy at hpr
  have h1 := (List.take_sublist _ _).subset hpr
  exact selectedPairsOf_mem pr (List.mem_mergeSort.mp h1)

theorem prunedPairsOf_bounds {nodes : List BookNode} :
    ∀ pr ∈ prunedPairsOf nodes, pr.i < pr.j ∧ pr.j < nodes.length :=
  fun pr hpr => allPairsOf_bounds pr (prunedPairsOf_mem pr hpr)

/-- Profiles with components in `[0, 1]` have nonnegative similarity. -/
theorem calculateSimilarity_nonneg {a b : SentimentScores}
    (ha : ScoresInRange a) (hb : ScoresInRange b) :
    0 ≤ calculateSimilarity a b := by
  unfold calculateSimilarity
  split
  · exact le_rfl
  · have hd : 0 ≤ dotProduct a b := by
      rw [dotProduct_expand]
      obtain ⟨ha1, ha2, ha3, ha4, ha5⟩ := ha
      obtain ⟨hb1, hb2, hb3, hb4, hb5⟩ := hb
      have h1 := mul_nonneg ha1.1 hb1.1
      have h2 := mul_nonneg ha2.1 hb2.1
      have h3 := mul_nonneg ha3.1 hb3.1
      have h4 := mul_nonneg ha4.1 hb4.1
      have h5 := mul_nonneg ha5.1 hb5.1
      linarith
    exact div_nonneg hd (mul_nonneg (magnitude_nonneg a) (magnitude_nonneg b))

theorem basicLinksOf_mem {nodes : List BookNode} {l : GraphLink}
    (hl : l ∈ basicLinksOf nodes) :
    ∃ pr ∈ prunedPairsOf nodes,
      l.source = idOf nodes pr.i ∧ l.target = idOf nodes pr.j := by
  unfold basicLinksOf at hl
  rw [List.mem_map] at hl
  obtain ⟨pr, hpr, heq⟩ := hl
  exact ⟨pr, hpr, by rw [← heq], by rw [← heq]⟩

/-- The union pass over the links: the state stays well-formed, classes only
ever merge along links, every processed link's endpoints end up merged, and
class equality keeps implying link connectivity. -/
theorem unionLinks_invariant (nodes : List BookNode)
    (alllinks : List GraphLink) :
    ∀ (links : List GraphLink) (p : Nat → Nat),
      (∀ l ∈ links, l ∈ alllinks) →
      UFGood nodes.length p →
      (∀ a b, a < nodes.length → b < nodes.length → rootEq p a b →
        LinkConn alllinks (idOf nodes a) (idOf nodes b)) →
      UFGood nodes.length (unionLinks nodes.length nodes links p) ∧
      (∀ a b, a < nodes.length → b < nodes.length →
        rootEq (unionLinks nodes.length nodes links p) a b →
        LinkConn alllinks (idOf nodes a) (idOf nodes b)) ∧
      (∀ a b, a < nodes.length → b < nodes.length → rootEq p a b →
        rootEq (unionLinks nodes.length nodes links p) a b) ∧
      (∀ l ∈ links, ∀ si ti, nodeIdToIndex nodes l.source = some si →
        nodeIdToIndex nodes l.target = some ti →
        rootEq (unionLinks nodes.length nodes links p) si ti) := by
  intro links
  induction links with
  | nil =>
    intro p _ hg hconn
    refine ⟨hg, hconn, fun a b _ _ h => h, ?_⟩
    intro l hl
    exact absurd hl (List.not_mem_nil l)
  | cons l rest ih =>
    intro p hsub hg hconn
    rcases hs : nodeIdToIndex nodes l.source with _ | si
    · have hstep : unionLinks nodes.length nodes (l :: rest) p
          = unionLinks nodes.length nodes rest p := by
        unfold unionLinks
        rw [List.foldl_cons]
        congr 1
        show (match nodeIdToIndex nodes l.source,
            nodeIdToIndex nodes l.target with
          | some sourceIdx, some targetIdx =>
            ufUnion nodes.length p sourceIdx targetIdx
          | _, _ => p) = p
        rw [hs]
      rw [hstep]
      obtain ⟨g1, g2, g3, g4⟩ :=
        ih p (fun l' hl' => hsub l' (List.mem_cons_of_mem _ hl')) hg hconn
      refine ⟨g1, g2, g3, ?_⟩
      intro l' hl' si ti hsi hti
      rcases List.mem_cons.mp hl' with heq | hmem
      · subst heq
        rw [hs] at hsi
        exact absurd hsi (by simp)
      · exact g4 l' hmem si ti hsi hti
    · rcases ht : nodeIdToIndex nodes l.target with _ | ti
      · have hstep : unionLinks nodes.length nodes (l :: rest) p
            = unionLinks nodes.length nodes rest p := by
          unfold unionLinks
          rw [List.foldl_cons]
          congr 1
          show (match nodeIdToIndex nodes l.source,
              nodeIdToIndex nodes l.target with
            | some sourceIdx, some targetIdx =>
              ufUnion nodes.length p sourceIdx targetIdx
            | _, _ => p) = p
          rw [hs, ht]
        rw [hstep]
        obtain ⟨g1, g2, g3, g4⟩ :=
          ih p (fun l' hl' => hsub l' (List.mem_cons_of_mem _ hl')) hg hconn
        refine ⟨g1, g2, g3, ?_⟩
        intro l' hl' si' ti' hsi hti
        rcases List.mem_cons.mp hl' with heq | hmem
        · subst heq
          rw [ht] at hti
          exact absurd hti (by simp)
        · exact g4 l' hmem si' ti' hsi hti
      · have hstep : unionLinks nodes.length nodes (l :: rest) p
            = unionLinks nodes.length nodes rest
              (ufUnion nodes.length p si ti) := by
          unfold unionLinks
          rw [List.foldl_cons]
          congr 1
          show (match nodeIdToIndex nodes l.source,
              nodeIdToIndex nodes l.target with
            | some sourceIdx, some targetIdx =>
              ufUnion nodes.length p sourceIdx targetIdx
            | _, _ => p) = ufUnion nodes.length p si ti
          rw [hs, ht]
        obtain ⟨hsin, hsid⟩ := nodeIdToIndex_some hs
        obtain ⟨htin, htid⟩ := nodeIdToIndex_some ht
        obtain ⟨rsi, hrsi⟩ := hg.2 si hsin
        obtain ⟨rti, hrti⟩ := hg.2 ti htin
        obtain ⟨hg1, hmap⟩ := ufUnion_spec hg hsin htin hrsi hrti
        have hlal : l ∈ alllinks := hsub l (List.mem_cons_self _ _)
        have hedge : LinkConn alllinks (idOf nodes si) (idOf nodes ti) := by
          rw [hsid, htid]
          exact LinkConn.of_mem hlal
        have hmono : ∀ a b, a < nodes.length → b < nodes.length →
            rootEq p a b → rootEq (ufUnion nodes.length p si ti) a b := by
          intro a b ha hb hr
          obtain ⟨r, hra, hrb⟩ := hr
          exact ⟨if r = rsi then rti else r, hmap a ha r hra, hmap b hb r hrb⟩
        have hconn1 : ∀ a b, a < nodes.length → b < nodes.length →
            rootEq (ufUnion nodes.length p si ti) a b →
            LinkConn alllinks (idOf nodes a) (idOf nodes b) := by
          intro a b ha hb hr
          obtain ⟨sa, hsa⟩ := hg.2 a ha
          obtain ⟨sb, hsb⟩ := hg.2 b hb
          have hfa := hmap a ha sa hsa
          have hfb := hmap b hb sb hsb
          obtain ⟨r, hra, hrb⟩ := hr
          have heq1 : r = if sa = rsi then rti else sa := hra.det hfa
          have heq2 : r = if sb = rsi then rti else sb := hrb.det hfb
          by_cases hsab : sa = sb
          · exact hconn a b ha hb ⟨sa, hsa, hsab ▸ hsb⟩
          · by_cases h1 : sa = rsi
            · by_cases h2 : sb = rsi
              · exact absurd (h1.trans h2.symm) hsab
              · rw [if_pos h1] at heq1
                rw [if_neg h2] at heq2
                have hsbr : sb = rti := by omega
                have hca : LinkConn alllinks (idOf nodes a) (idOf nodes si) :=
                  hconn a si ha hsin ⟨rsi, h1 ▸ hsa, hrsi⟩
                have hcb : LinkConn alllinks (idOf nodes b) (idOf nodes ti) :=
                  hconn b ti hb htin ⟨rti, hsbr ▸ hsb, hrti⟩
                exact ((hca.trans hedge).trans hcb.symm)
            · by_cases h2 : sb = rsi
              · rw [if_neg h1] at heq1
                rw [if_pos h2] at heq2
                have hsar : sa = rti := by omega
                have hca : LinkConn alllinks (idOf nodes a) (idOf nodes ti) :=
                  hconn a ti ha htin ⟨rti, hsar ▸ hsa, hrti⟩
                have hcb : LinkConn alllinks (idOf nodes b) (idOf nodes si) :=
                  hconn b si hb hsin ⟨rsi, h2 ▸ hsb, hrsi⟩
                exact ((hca.trans hedge.symm).trans hcb.symm)
              · rw [if_neg h1] at heq1
                rw [if_neg h2] at heq2
                exact absurd (heq1 ▸ heq2) (by omega)
        rw [hstep]
        obtain ⟨g1, g2, g3, g4⟩ := ih (ufUnion nodes.length p si ti)
          (fun l' hl' => hsub l' (List.mem_cons_of_mem _ hl')) hg1 hconn1
        refine ⟨g1, g2, ?_, ?_⟩
        · intro a b ha hb hr
          exact g3 a b ha hb (hmono a b ha hb hr)
        · intro l' hl' si' ti' hsi' hti'
          rcases List.mem_cons.mp hl' with heq | hmem
          · subst heq
            rw [hs] at hsi'
            rw [ht] at hti'
            have hsi'' : si' = si := by injection hsi' with h; exact h.symm
            have hti'' : ti' = ti := by injection hti' with h; exact h.symm
            rw [hsi'', hti'']
            have hm : rootEq (ufUnion nodes.length p si ti) si ti := by
              refine ⟨rti, ?_, ?_⟩
              · have := hmap si hsin rsi hrsi
                rwa [if_pos rfl] at this
              · have := hmap ti htin rti hrti
                rwa [ite_self] at this
            exact g3 si ti hsin htin hm
          · exact g4 l' hmem si' ti' hsi' hti'

/-- With distinct identifiers, link connectivity over the pruned links
implies union-find class equality once every link has been merged. -/
theorem LinkConn_to_rootEq {nodes : List BookNode}
    (hnodup : (nodes.map BookNode.id).Nodup) {p : Nat → Nat}
    (hg : UFGood nodes.length p)
    (hmerged : ∀ l ∈ basicLinksOf nodes, ∀ si ti,
      nodeIdToIndex nodes l.source = some si →
      nodeIdToIndex nodes l.target = some ti → rootEq p si ti) :
    ∀ a b, a < nodes.length → b < nodes.length →
      LinkConn (basicLinksOf nodes) (idOf nodes a) (idOf nodes b) →
      rootEq p a b := by
  intro a b ha hb hconn
  suffices h : ∀ v, LinkConn (basicLinksOf nodes) (idOf nodes a) v →
      ∀ c, c < nodes.length → v = idOf nodes c → rootEq p a c by
    exact h _ hconn b hb rfl
  intro v hv
  induction hv with
  | refl =>
    intro c hc hceq
    obtain ⟨r, hr⟩ := hg.2 a ha
    exact (idOf_inj hnodup ha hc hceq) ▸ ⟨r, hr, hr⟩
  | tail hrt hstep ih =>
    intro c hc hceq
    obtain ⟨l, hl, hd⟩ := hstep
    obtain ⟨pr, hpr, hsrc, htgt⟩ := basicLinksOf_mem hl
    obtain ⟨hij, hjn⟩ := prunedPairsOf_bounds pr hpr
    have hin : pr.i < nodes.length := lt_trans hij hjn
    have hsi : nodeIdToIndex nodes l.source = some pr.i := by
      rw [hsrc]
      exact nodeIdToIndex_of_nodup hnodup hin
    have hti : nodeIdToIndex nodes l.target = some pr.j := by
      rw [htgt]
      exact nodeIdToIndex_of_nodup hnodup hjn
    have hme := hmerged l hl _ _ hsi hti
    rcases hd with ⟨hws, hwt⟩ | ⟨hws, hwt⟩
    · have hiw : rootEq p a pr.i := ih pr.i hin (by rw [← hws, hsrc])
      have hcj : c = pr.j := by
        apply idOf_inj hnodup hc hjn
        rw [← hceq, ← hwt, htgt]
      exact hcj ▸ hiw.chain hme
    · have hjw : rootEq p a pr.j := ih pr.j hjn (by rw [← hwt, htgt])
      have hci : c = pr.i := by
        apply idOf_inj hnodup hc hin
        rw [← hceq, ← hws, hsrc]
      exact hci ▸ hjw.chain hme.swap

/-- The fold body of `collectComponents`, abstracted over the scanned list
and starting state (used to reason by induction). -/
def collectGo (n sroot : Nat) (l : List Nat) (st : (Nat → Nat) × List Nat) :
    (Nat → Nat) × List Nat :=
  l.foldl (fun acc i =>
    let f := ufFind n acc.1 i
    if f.2 ≠ sroot ∧ f.2 ∉ acc.2 then (f.1, acc.2 ++ [f.2])
    else (f.1, acc.2)) st

theorem collectComponents_eq_go (n sroot : Nat) (p : Nat → Nat) :
    collectComponents n sroot p = collectGo n sroot (List.range n) (p, []) :=
  rfl

theorem collectGo_cons (n sroot i : Nat) (t : List Nat) (p : Nat → Nat)
    (acc : List Nat) :
    collectGo n sroot (i :: t) (p, acc) =
      collectGo n sroot t
        (if (ufFind n p i).2 ≠ sroot ∧ (ufFind n p i).2 ∉ acc
          then ((ufFind n p i).1, acc ++ [(ufFind n p i).2])
          else ((ufFind n p i).1, acc)) :=
  rfl

/-- The fold body of `collectMembers`, abstracted likewise. -/
def membersGo (n c : Nat) (l : List Nat) (st : (Nat → Nat) × List Nat) :
    (Nat → Nat) × List Nat :=
  l.foldl (fun acc idx =>
    let f := ufFind n acc.1 idx
    if f.2 = c then (f.1, acc.2 ++ [idx]) else (f.1, acc.2)) st

theorem collectMembers_eq_go (n c : Nat) (p : Nat → Nat) :
    collectMembers n c p = membersGo n c (List.range n) (p, []) :=
  rfl

theorem membersGo_cons (n c i : Nat) (t : List Nat) (p : Nat → Nat)
    (acc : List Nat) :
    membersGo n c (i :: t) (p, acc) =
      membersGo n c t
        (if (ufFind n p i).2 = c then ((ufFind n p i).1, acc ++ [i])
          else ((ufFind n p i).1, acc)) :=
  rfl

/-- The fold body of `bestMember`, abstracted over the starting
accumulator. -/
noncomputable def bestGo (nodes : List BookNode) (searchedIdx : Nat)
    (l : List Nat) (best : Int × ℝ) : Int × ℝ :=
  l.foldl (fun best nodeIdx =>
    let sim := calculateSimilarity
      (nodes.getD nodeIdx defaultBook).sentimentScores
      (nodes.getD searchedIdx defaultBook).sentimentScores
    if sim > best.2 then (Int.ofNat nodeIdx, sim) else best) best

theorem bestMember_eq_go (nodes : List BookNode) (searchedIdx : Nat)
    (members : List Nat) :
    bestMember nodes searchedIdx members
      = bestGo nodes searchedIdx members (-1, -1) :=
  rfl

theorem bestGo_cons (nodes : List BookNode) (searchedIdx m : Nat)
    (t : List Nat) (best : Int × ℝ) :
    bestGo nodes searchedIdx (m :: t) best =
      bestGo nodes searchedIdx t
        (if calculateSimilarity (nodes.getD m defaultBook).sentimentScores
            (nodes.getD searchedIdx defaultBook).sentimentScores > best.2
          then (Int.ofNat m, calculateSimilarity
            (nodes.getD m defaultBook).sentimentScores
            (nodes.getD searchedIdx defaultBook).sentimentScores)
          else best) :=
  rfl

theorem bestGo_fst (nodes : List BookNode) (searchedIdx : Nat) :
    ∀ (l : List Nat) (best : Int × ℝ),
      (bestGo nodes searchedIdx l best).1 = best.1 ∨
        ∃ m ∈ l, (bestGo nodes searchedIdx l best).1 = Int.ofNat m := by
  intro l
  induction l with
  | nil => intro best; exact Or.inl rfl
  | cons m t ih =>
    intro best
    rw [bestGo_cons]
    by_cases hc : calculateSimilarity (nodes.getD m defaultBook).sentimentScores
        (nodes.getD searchedIdx defaultBook).sentimentScores > best.2
    · rw [if_pos hc]
      rcases ih _ with h | ⟨m', hm', h⟩
      · exact Or.inr ⟨m, List.mem_cons_self _ _, h⟩
      · exact Or.inr ⟨m', List.mem_cons_of_mem _ hm', h⟩
    · rw [if_neg hc]
      rcases ih best with h | ⟨m', hm', h⟩
      · exact Or.inl h
      · exact Or.inr ⟨m', List.mem_cons_of_mem _ hm', h⟩

theorem bestGo_ne_neg_one (nodes : List BookNode) (searchedIdx : Nat) :
    ∀ (l : List Nat) (best : Int × ℝ), best.1 ≠ -1 →
      (bestGo nodes searchedIdx l best).1 ≠ -1 := by
  intro l
  induction l with
  | nil => intro best h; exact h
  | cons m t ih =>
    intro best h
    rw [bestGo_cons]
    by_cases hc : calculateSimilarity (nodes.getD m defaultBook).sentimentScores
        (nodes.getD searchedIdx defaultBook).sentimentScores > best.2
    · rw [if_pos hc]
      exact ih _ (by simp)
    · rw [if_neg hc]
      exact ih best h

theorem bestMember_found {nodes : List BookNode} {searchedIdx m : Nat}
    {t : List Nat}
    (hsim : calculateSimilarity (nodes.getD m defaultBook).sentimentScores
      (nodes.getD searchedIdx defaultBook).sentimentScores > -1) :
    (bestMember nodes searchedIdx (m :: t)).1 ≠ -1 := by
  rw [bestMember_eq_go, bestGo_cons]
  rw [if_pos hsim]
  exact bestGo_ne_neg_one nodes searchedIdx t _ (by simp)

/-- Scanning for disconnected components: the state keeps its roots, the
collected roots are distinct non-searched roots, and every scanned index
roots either at the searched root or at a collected root. -/
theorem collectGo_spec {n sroot : Nat} :
    ∀ (l : List Nat) (p : Nat → Nat) (acc : List Nat),
      (∀ i ∈ l, i < n) → UFGood n p → acc.Nodup →
      (∀ c ∈ acc, c < n ∧ c ≠ sroot ∧ Rooted p c c) →
      UFGood n (collectGo n sroot l (p, acc)).1 ∧
      SameRoots n p (collectGo n sroot l (p, acc)).1 ∧
      (collectGo n sroot l (p, acc)).2.Nodup ∧
      (∀ c ∈ (collectGo n sroot l (p, acc)).2,
        c < n ∧ c ≠ sroot ∧ Rooted p c c) ∧
      (∀ c ∈ acc, c ∈ (collectGo n sroot l (p, acc)).2) ∧
      (∀ i ∈ l, ∀ r, Rooted p i r →
        r = sroot ∨ r ∈ (collectGo n sroot l (p, acc)).2) := by
  intro l
  induction l with
  | nil =>
    intro p acc _ hg hnd hprops
    exact ⟨hg, SameRoots.rfl, hnd, hprops, fun c hc => hc,
      fun i hi => absurd hi (List.not_mem_nil i)⟩
  | cons i t ih =>
    intro p acc hl hg hnd hprops
    have hin : i < n := hl i (List.mem_cons_self _ _)
    obtain ⟨hroot, hg1, hsame1⟩ := ufFind_roots hg hin
    have hrn : (ufFind n p i).2 < n := by
      obtain ⟨k, hk⟩ := hroot
      exact RootedN.lt hg.1 hin hk
    have hrr : Rooted p (ufFind n p i).2 (ufFind n p i).2 := by
      obtain ⟨k, hk⟩ := hroot
      exact Rooted.self_iff.mpr hk.isRoot
    rw [collectGo_cons]
    by_cases hb : (ufFind n p i).2 ≠ sroot ∧ (ufFind n p i).2 ∉ acc
    · rw [if_pos hb]
      have hnd' : (acc ++ [(ufFind n p i).2]).Nodup := by
        simp [List.nodup_append, hnd, hb.2]
      have hprops' : ∀ c ∈ acc ++ [(ufFind n p i).2],
          c < n ∧ c ≠ sroot ∧ Rooted (ufFind n p i).1 c c := by
        intro c hc
        rcases List.mem_append.mp hc with hc | hc
        · obtain ⟨h1, h2, h3⟩ := hprops c hc
          exact ⟨h1, h2, (hsame1 c h1 c).mp h3⟩
        · rw [List.mem_singleton.mp hc]
          exact ⟨hrn, hb.1, (hsame1 _ hrn _).mp hrr⟩
      obtain ⟨g1, g2, g3, g4, g5, g6⟩ :=
        ih (ufFind n p i).1 (acc ++ [(ufFind n p i).2])
          (fun j hj => hl j (List.mem_cons_of_mem _ hj)) hg1 hnd' hprops'
      refine ⟨g1, hsame1.trans g2, g3, ?_, ?_, ?_⟩
      · intro c hc
        obtain ⟨h1, h2, h3⟩ := g4 c hc
        exact ⟨h1, h2, (hsame1 c h1 c).mpr h3⟩
      · intro c hc
        exact g5 c (List.mem_append_left _ hc)
      · intro j hj r hr
        rcases List.mem_cons.mp hj with hji | hjt
        · subst hji
          have : r = (ufFind n p j).2 := hr.det hroot
          right
          rw [this]
          exact g5 _ (List.mem_append_right _ (List.mem_singleton.mpr rfl))
        · have hjn : j < n := hl j (List.mem_cons_of_mem _ hjt)
          exact g6 j hjt r ((hsame1 j hjn r).mp hr)
    · rw [if_neg hb]
      push_neg at hb
      have hprops' : ∀ c ∈ acc, c < n ∧ c ≠ sroot ∧
          Rooted (ufFind n p i).1 c c := by
        intro c hc
        obtain ⟨h1, h2, h3⟩ := hprops c hc
        exact ⟨h1, h2, (hsame1 c h1 c).mp h3⟩
      obtain ⟨g1, g2, g3, g4, g5, g6⟩ :=
        ih (ufFind n p i).1 acc
          (fun j hj => hl j (List.mem_cons_of_mem _ hj)) hg1 hnd hprops'
      refine ⟨g1, hsame1.trans g2, g3, ?_, g5, ?_⟩
      · intro c hc
        obtain ⟨h1, h2, h3⟩ := g4 c hc
        exact ⟨h1, h2, (hsame1 c h1 c).mpr h3⟩
      · intro j hj r hr
        rcases List.mem_cons.mp hj with hji | hjt
        · subst hji
          have hreq : r = (ufFind n p j).2 := hr.det hroot
          by_cases hsr : (ufFind n p j).2 = sroot
          · exact Or.inl (hreq.trans hsr)
          · right
            rw [hreq]
            exact g5 _ (hb hsr)
        · have hjn : j < n := hl j (List.mem_cons_of_mem _ hjt)
          exact g6 j hjt r ((hsame1 j hjn r).mp hr)

/-- Scanning a component's members: the returned indices are exactly the
indices of the scanned list rooted at `c`, and the state keeps its roots. -/
theorem membersGo_spec {n c : Nat} :
    ∀ (l : List Nat) (p : Nat → Nat) (acc : List Nat),
      (∀ i ∈ l, i < n) → UFGood n p →
      UFGood n (membersGo n c l (p, acc)).1 ∧
      SameRoots n p (membersGo n c l (p, acc)).1 ∧
      (∀ m ∈ (membersGo n c l (p, acc)).2,
        m ∈ acc ∨ (m ∈ l ∧ Rooted p m c)) ∧
      (∀ i ∈ l, Rooted p i c → i ∈ (membersGo n c l (p, acc)).2) ∧
      (∀ m ∈ acc, m ∈ (membersGo n c l (p, acc)).2) := by
  intro l
  induction l with
  | nil =>
    intro p acc _ hg
    exact ⟨hg, SameRoots.rfl, fun m hm => Or.inl hm,
      fun i hi => absurd hi (List.not_mem_nil i), fun m hm => hm⟩
  | cons i t ih =>
    intro p acc hl hg
    have hin : i < n := hl i (List.mem_cons_self _ _)
    obtain ⟨hroot, hg1, hsame1⟩ := ufFind_roots hg hin
    rw [membersGo_cons]
    by_cases hb : (ufFind n p i).2 = c
    · rw [if_pos hb]
      obtain ⟨g1, g2, g3, g4, g5⟩ :=
        ih (ufFind n p i).1 (acc ++ [i])
          (fun j hj => hl j (List.mem_cons_of_mem _ hj)) hg1
      have hic : Rooted p i c := hb ▸ hroot
      refine ⟨g1, hsame1.trans g2, ?_, ?_, ?_⟩
      · intro m hm
        rcases g3 m hm with hma | ⟨hmt, hmc⟩
        · rcases List.mem_append.mp hma with hma | hma
          · exact Or.inl hma
          · rw [List.mem_singleton.mp hma]
            exact Or.inr ⟨List.mem_cons_self _ _, hic⟩
        · have hmn : m < n := hl m (List.mem_cons_of_mem _ hmt)
          exact Or.inr ⟨List.mem_cons_of_mem _ hmt, (hsame1 m hmn c).mpr hmc⟩
      · intro j hj hjc
        rcases List.mem_cons.mp hj with hji | hjt
        · subst hji
          exact g5 j (List.mem_append_right _ (List.mem_singleton.mpr rfl))
        · have hjn : j < n := hl j (List.mem_cons_of_mem _ hjt)
          exact g4 j hjt ((hsame1 j hjn c).mp hjc)
      · intro m hm
        exact g5 m (List.mem_append_left _ hm)
    · rw [if_neg hb]
      obtain ⟨g1, g2, g3, g4, g5⟩ :=
        ih (ufFind n p i).1 acc
          (fun j hj => hl j (List.mem_cons_of_mem _ hj)) hg1
      refine ⟨g1, hsame1.trans g2, ?_, ?_, g5⟩
      · intro m hm
        rcases g3 m hm with hma | ⟨hmt, hmc⟩
        · exact Or.inl hma
        · have hmn : m < n := hl m (List.mem_cons_of_mem _ hmt)
          exact Or.inr ⟨List.mem_cons_of_mem _ hmt, (hsame1 m hmn c).mpr hmc⟩
      · intro j hj hjc
        rcases List.mem_cons.mp hj with hji | hjt
        · subst hji
          exact absurd (hjc.det hroot).symm hb
        · have hjn : j < n := hl j (List.mem_cons_of_mem _ hjt)
          exact g4 j hjt ((hsame1 j hjn c).mp hjc)

theorem getD_mem_of_lt {nodes : List BookNode} {i : Nat}
    (h : i < nodes.length) : nodes.getD i defaultBook ∈ nodes := by
  rw [List.getD_eq_getElem _ _ h]
  exact List.getElem_mem h

/-- The repair fold, abstracted over the processed root list and starting
state. -/
noncomputable def repairGo (n : Nat) (nodes : List BookNode) (searched : Nat)
    (S : List Nat) (st : (Nat → Nat) × List GraphLink) :
    (Nat → Nat) × List GraphLink :=
  S.foldl (repairStep n nodes searched) st

theorem repairGo_cons (n : Nat) (nodes : List BookNode) (searched c : Nat)
    (T : List Nat) (st : (Nat → Nat) × List GraphLink) :
    repairGo n nodes searched (c :: T) st
      = repairGo n nodes searched T (repairStep n nodes searched st c) :=
  rfl

theorem repairStep_eq (n : Nat) (nodes : List BookNode) (searched : Nat)
    (p : Nat → Nat) (links : List GraphLink) (c : Nat) :
    repairStep n nodes searched (p, links) c =
      if (bestMember nodes searched (collectMembers n c p).2).1 ≠ -1 then
        (ufUnion n (collectMembers n c p).1
          (bestMember nodes searched (collectMembers n c p).2).1.toNat
          searched,
         links ++
          [⟨idOf nodes
              (bestMember nodes searched (collectMembers n c p).2).1.toNat,
            idOf nodes searched,
            (bestMember nodes searched (collectMembers n c p).2).2,
            generateConnectionReason
              (nodes.getD
                (bestMember nodes searched (collectMembers n c p).2).1.toNat
                defaultBook)
              (nodes.getD searched defaultBook)
              (bestMember nodes searched (collectMembers n c p).2).2⟩])
      else ((collectMembers n c p).1, links) :=
  rfl

/-- One repair iteration on a pending component root `c`: a best member
`bm` of the component is found (components in range always have one), one
edge from `bm` to the searched node is pushed, and the component is merged
into the searched component. -/
theorem repairStep_analysis (nodes : List BookNode) (searched sroot : Nat)
    (hrange : ∀ b ∈ nodes, ScoresInRange b.sentimentScores)
    (hsn : searched < nodes.length)
    (p : Nat → Nat) (links : List GraphLink) (c : Nat)
    (hg : UFGood nodes.length p)
    (hsr : Rooted p searched sroot)
    (hcn : c < nodes.length) (hcc : Rooted p c c) :
    ∃ q bm w,
      repairStep nodes.length nodes searched (p, links) c =
        (q, links ++ [⟨idOf nodes bm, idOf nodes searched, w,
          generateConnectionReason (nodes.getD bm defaultBook)
            (nodes.getD searched defaultBook) w⟩]) ∧
      bm < nodes.length ∧ Rooted p bm c ∧
      UFGood nodes.length q ∧
      (∀ z, z < nodes.length → ∀ s, Rooted p z s →
        Rooted q z (if s = c then sroot else s)) := by
  have hmem := @membersGo_spec nodes.length c (List.range nodes.length) p []
    (fun i hi => List.mem_range.mp hi) hg
  rw [← collectMembers_eq_go] at hmem
  obtain ⟨hgm, hsamem, hsound, hcompm, _⟩ := hmem
  have hcmem : c ∈ (collectMembers nodes.length c p).2 :=
    hcompm c (List.mem_range.mpr hcn) hcc
  have hsimpos : ∀ m ∈ (collectMembers nodes.length c p).2,
      calculateSimilarity (nodes.getD m defaultBook).sentimentScores
        (nodes.getD searched defaultBook).sentimentScores > -1 := by
    intro m hm
    rcases hsound m hm with hm0 | ⟨hmr, _⟩
    · exact absurd hm0 (List.not_mem_nil m)
    · have hmn : m < nodes.length := List.mem_range.mp hmr
      have h0 := calculateSimilarity_nonneg
        (hrange _ (getD_mem_of_lt hmn)) (hrange _ (getD_mem_of_lt hsn))
      linarith
  have hbne : (bestMember nodes searched
      (collectMembers nodes.length c p).2).1 ≠ -1 := by
    rcases hml : (collectMembers nodes.length c p).2 with _ | ⟨m0, mt⟩
    · rw [hml] at hcmem
      exact absurd hcmem (List.not_mem_nil c)
    · refine bestMember_found (hsimpos m0 ?_)
      rw [hml]
      exact List.mem_cons_self _ _
  obtain ⟨bm, hbmm, hbm⟩ : ∃ bm ∈ (collectMembers nodes.length c p).2,
      (bestMember nodes searched (collectMembers nodes.length c p).2).1
        = Int.ofNat bm := by
    rcases bestGo_fst nodes searched
        (collectMembers nodes.length c p).2 (-1, -1) with h | ⟨m, hm, h⟩
    · rw [bestMember_eq_go] at hbne
      exact absurd h hbne
    · rw [bestMember_eq_go]
      exact ⟨m, hm, h⟩
  have hbmn : bm < nodes.length := by
    rcases hsound bm hbmm with h | ⟨hmr, _⟩
    · exact absurd h (List.not_mem_nil bm)
    · exact List.mem_range.mp hmr
  have hbmc : Rooted p bm c := by
    rcases hsound bm hbmm with h | ⟨_, h⟩
    · exact absurd h (List.not_mem_nil bm)
    · exact h
  have htn : (bestMember nodes searched
      (collectMembers nodes.length c p).2).1.toNat = bm := by
    rw [hbm]
    rfl
  have hbmc1 : Rooted (collectMembers nodes.length c p).1 bm c :=
    (hsamem bm hbmn c).mp hbmc
  have hsr1 : Rooted (collectMembers nodes.length c p).1 searched sroot :=
    (hsamem searched hsn sroot).mp hsr
  obtain ⟨hgq, hmap⟩ := ufUnion_spec hgm hbmn hsn hbmc1 hsr1
  refine ⟨ufUnion nodes.length (collectMembers nodes.length c p).1
      bm searched, bm,
    (bestMember nodes searched (collectMembers nodes.length c p).2).2,
    ?_, hbmn, hbmc, hgq, ?_⟩
  · rw [repairStep_eq, if_pos hbne, htn]
  · intro z hz s hs
    exact hmap z hz s ((hsamem z hz s).mp hs)

/-- The connectivity repair loop: starting from a well-formed state whose
non-searched component roots are exactly the pending list, the loop adds
exactly one edge per pending component, each edge joining a distinct
non-anchor node to the anchor, and it ends with every node in the searched
component, class equality still implying connectivity over the produced
links. -/
theorem repairGo_spec (nodes : List BookNode) (searched sroot : Nat)
    (hrange : ∀ b ∈ nodes, ScoresInRange b.sentimentScores)
    (hsn : searched < nodes.length) :
    ∀ (S : List Nat) (p : Nat → Nat) (links : List GraphLink),
      UFGood nodes.length p →
      Rooted p searched sroot →
      S.Nodup →
      (∀ c ∈ S, c < nodes.length ∧ c ≠ sroot ∧ Rooted p c c) →
      (∀ i, i < nodes.length → ∀ r, Rooted p i r → r = sroot ∨ r ∈ S) →
      (∀ a b, a < nodes.length → b < nodes.length → rootEq p a b →
        LinkConn links (idOf nodes a) (idOf nodes b)) →
      UFGood nodes.length
        (repairGo nodes.length nodes searched S (p, links)).1 ∧
      (∀ i, i < nodes.length →
        rootEq (repairGo nodes.length nodes searched S (p, links)).1
          i searched) ∧
      (∀ a b, a < nodes.length → b < nodes.length →
        rootEq (repairGo nodes.length nodes searched S (p, links)).1 a b →
        LinkConn (repairGo nodes.length nodes searched S (p, links)).2
          (idOf nodes a) (idOf nodes b)) ∧
      (∃ (added : List GraphLink) (bs : List Nat),
        (repairGo nodes.length nodes searched S (p, links)).2
          = links ++ added ∧
        added.length = S.length ∧
        added.map (fun l => (l.source, l.target))
          = bs.map (fun b => (idOf nodes b, idOf nodes searched)) ∧
        bs.Nodup ∧
        (∀ b ∈ bs, b < nodes.length ∧ b ≠ searched ∧
          ∃ c ∈ S, c ≠ sroot ∧ Rooted p b c)) := by
  intro S
  induction S with
  | nil =>
    intro p links hg hsr _ _ hcomplete hconn
    refine ⟨hg, ?_, hconn, [], [], (List.append_nil links).symm, rfl, rfl,
      List.nodup_nil, fun b hb => absurd hb (List.not_mem_nil b)⟩
    intro i hi
    obtain ⟨r, hr⟩ := hg.2 i hi
    rcases hcomplete i hi r hr with hrs | hrs
    · exact ⟨sroot, hrs ▸ hr, hsr⟩
    · exact absurd hrs (List.not_mem_nil r)
  | cons c T ih =>
    intro p links hg hsr hnd hS hcomplete hconn
    obtain ⟨hcn, hcsr, hcc⟩ := hS c (List.mem_cons_self _ _)
    have hcT : c ∉ T := (List.nodup_cons.mp hnd).1
    have hndT : T.Nodup := (List.nodup_cons.mp hnd).2
    obtain ⟨q, bm, w, hstep, hbmn, hbmc, hgq, hmap⟩ :=
      repairStep_analysis nodes searched sroot hrange hsn p links c
        hg hsr hcn hcc
    have hbmsr : bm ≠ searched := by
      intro hcon
      have : Rooted p searched c := hcon ▸ hbmc
      exact hcsr ((this.det hsr) ▸ rfl)
    have hqsr : Rooted q searched sroot := by
      have := hmap searched hsn sroot hsr
      rwa [ite_self] at this
    have hTprops : ∀ c' ∈ T, c' < nodes.length ∧ c' ≠ sroot ∧
        Rooted q c' c' := by
      intro c' hc'
      obtain ⟨h1, h2, h3⟩ := hS c' (List.mem_cons_of_mem _ hc')
      have hne : c' ≠ c := fun hcon => hcT (hcon ▸ hc')
      have h4 := hmap c' h1 c' h3
      rw [if_neg hne] at h4
      exact ⟨h1, h2, h4⟩
    have hcompleteT : ∀ i, i < nodes.length → ∀ r, Rooted q i r →
        r = sroot ∨ r ∈ T := by
      intro i hi r hr
      obtain ⟨s, hs⟩ := hg.2 i hi
      have hq := hmap i hi s hs
      have hrs : r = if s = c then sroot else s := hr.det hq
      rcases hcomplete i hi s hs with h1 | h1
      · left
        rw [hrs, h1, if_neg (Ne.symm hcsr)]
      · rcases List.mem_cons.mp h1 with h2 | h2
        · left
          rw [hrs, h2, if_pos rfl]
        · right
          have hne : s ≠ c := fun hcon => hcT (hcon ▸ h2)
          rw [hrs, if_neg hne]
          exact h2
    have hmono : ∀ a b, a < nodes.length → b < nodes.length →
        rootEq p a b → rootEq q a b := by
      intro a b ha hb hr
      obtain ⟨r, hra, hrb⟩ := hr
      exact ⟨if r = c then sroot else r, hmap a ha r hra, hmap b hb r hrb⟩
    have hnewmem : (⟨idOf nodes bm, idOf nodes searched, w,
        generateConnectionReason (nodes.getD bm defaultBook)
          (nodes.getD searched defaultBook) w⟩ : GraphLink)
        ∈ links ++ [⟨idOf nodes bm, idOf nodes searched, w,
          generateConnectionReason (nodes.getD bm defaultBook)
            (nodes.getD searched defaultBook) w⟩] :=
      List.mem_append_right _ (List.mem_singleton.mpr rfl)
    have hedge : LinkConn (links ++ [⟨idOf nodes bm, idOf nodes searched, w,
        generateConnectionReason (nodes.getD bm defaultBook)
          (nodes.getD searched defaultBook) w⟩])
        (idOf nodes bm) (idOf nodes searched) :=
      LinkConn.of_mem hnewmem
    have hconnq : ∀ a b, a < nodes.length → b < nodes.length →
        rootEq q a b →
        LinkConn (links ++ [⟨idOf nodes bm, idOf nodes searched, w,
          generateConnectionReason (nodes.getD bm defaultBook)
            (nodes.getD searched defaultBook) w⟩])
          (idOf nodes a) (idOf nodes b) := by
      intro a b ha hb hr
      obtain ⟨sa, hsa⟩ := hg.2 a ha
      obtain ⟨sb, hsb⟩ := hg.2 b hb
      have hfa := hmap a ha sa hsa
      have hfb := hmap b hb sb hsb
      obtain ⟨r, hra, hrb⟩ := hr
      have heq1 : r = if sa = c then sroot else sa := hra.det hfa
      have heq2 : r = if sb = c then sroot else sb := hrb.det hfb
      by_cases hsab : sa = sb
      · exact (hconn a b ha hb ⟨sa, hsa, hsab ▸ hsb⟩).append_left
      · by_cases h1 : sa = c
        · by_cases h2 : sb = c
          · exact absurd (h1.trans h2.symm) hsab
          · rw [if_pos h1] at heq1
            rw [if_neg h2] at heq2
            have hsbr : sb = sroot := by omega
            have hca : LinkConn links (idOf nodes a) (idOf nodes bm) :=
              hconn a bm ha hbmn ⟨c, h1 ▸ hsa, hbmc⟩
            have hcb : LinkConn links (idOf nodes b) (idOf nodes searched) :=
              hconn b searched hb hsn ⟨sroot, hsbr ▸ hsb, hsr⟩
            exact ((hca.append_left.trans hedge).trans hcb.append_left.symm)
        · by_cases h2 : sb = c
          · rw [if_neg h1] at heq1
            rw [if_pos h2] at heq2
            have hsar : sa = sroot := by omega
            have hca : LinkConn links (idOf nodes a) (idOf nodes searched) :=
              hconn a searched ha hsn ⟨sroot, hsar ▸ hsa, hsr⟩
            have hcb : LinkConn links (idOf nodes b) (idOf nodes bm) :=
              hconn b bm hb hbmn ⟨c, h2 ▸ hsb, hbmc⟩
            exact ((hca.append_left.trans hedge.symm).trans
              hcb.append_left.symm)
          · rw [if_neg h1] at heq1
            rw [if_neg h2] at heq2
            exact absurd (heq1 ▸ heq2) (by omega)
    rw [repairGo_cons, hstep]
    obtain ⟨g1, g2, g3, added', bs', hga, hgl, hgm, hgn, hgp⟩ :=
      ih q (links ++ [⟨idOf nodes bm, idOf nodes searched, w,
        generateConnectionReason (nodes.getD bm defaultBook)
          (nodes.getD searched defaultBook) w⟩])
        hgq hqsr hndT hTprops hcompleteT hconnq
    refine ⟨g1, g2, g3,
      ⟨idOf nodes bm, idOf nodes searched, w,
        generateConnectionReason (nodes.getD bm defaultBook)
          (nodes.getD searched defaultBook) w⟩ :: added',
      bm :: bs', ?_, ?_, ?_, ?_, ?_⟩
    · rw [hga, List.append_assoc]
      rfl
    · simp only [List.length_cons, hgl, List.length_cons]
    · simp only [List.map_cons, hgm]
    · rw [List.nodup_cons]
      refine ⟨?_, hgn⟩
      intro hcon
      obtain ⟨_, _, c', hc', hc'sr, hbc'⟩ := hgp bm hcon
      have hbq : Rooted q bm sroot := by
        have := hmap bm hbmn c hbmc
        rwa [if_pos rfl] at this
      exact hc'sr ((hbc'.det hbq) ▸ rfl)
    · intro b hb
      rcases List.mem_cons.mp hb with hbbm | hbbs
      · subst hbbm
        exact ⟨hbmn, hbmsr, c, List.mem_cons_self _ _, hcsr, hbmc⟩
      · obtain ⟨h1, h2, c', hc', hc'sr, hbc'⟩ := hgp b hbbs
        refine ⟨h1, h2, c', List.mem_cons_of_mem _ hc', hc'sr, ?_⟩
        obtain ⟨s, hs⟩ := hg.2 b h1
        have hq := hmap b h1 s hs
        have : c' = if s = c then sroot else s := hbc'.det hq
        by_cases hsc : s = c
        · rw [if_pos hsc] at this
          exact absurd this hc'sr
        · rw [if_neg hsc] at this
          exact this ▸ hs

theorem countP_eq_le_one {l : List Nat} (h : l.Nodup) (x : Nat) :
    l.countP (fun b => decide (b = x)) ≤ 1 := by
  have h1 := List.nodup_iff_count_le_one.mp h x
  rw [List.count_eq_countP] at h1
  have h2 : l.countP (fun b => b == x) = l.countP (fun b => decide (b = x)) := by
    apply List.countP_congr
    intro b _
    simp
  rw [h2] at h1
  exact h1

theorem searchedIdxOf_lt {nodes : List BookNode} (hn : 1 ≤ nodes.length)
    (hl : Option String) : searchedIdxOf nodes hl < nodes.length := by
  cases hl with
  | none =>
    show (0 : Nat) < nodes.length
    omega
  | some q =>
    show (if q = "" then 0 else (nodeIdToIndex nodes q).getD 0) < nodes.length
    by_cases hq : q = ""
    · rw [if_pos hq]
      omega
    · rw [if_neg hq]
      cases hop : nodeIdToIndex nodes q with
      | none =>
        simp only [Option.getD_none]
        omega
      | some i =>
        simp only [Option.getD_some]
        exact (nodeIdToIndex_some hop).1

/-- An anchor identifier carried by no node falls back to index `0`. -/
theorem searchedIdxOf_of_absent {nodes : List BookNode} {q : String}
    (h : q ∉ nodes.map BookNode.id) : searchedIdxOf nodes (some q) = 0 := by
  show (if q = "" then 0 else (nodeIdToIndex nodes q).getD 0) = 0
  by_cases hq : q = ""
  · rw [if_pos hq]
  · rw [if_neg hq, nodeIdToIndex_none h]
    rfl

theorem bookGraphData_eq (books : List BookNode) (hl : Option String)
    (hn : books.length ≠ 0) :
    bookGraphData books hl = (books, repairedLinksOf books hl) := by
  show (if books.length = 0 then ([], [])
    else (books.map (fun book => book),
      repairedLinksOf (books.map (fun book => book)) hl))
    = (books, repairedLinksOf books hl)
  rw [if_neg hn, List.map_id']

theorem repairStateOf_eq_go (books : List BookNode) (hl : Option String) :
    repairStateOf books hl
      = repairGo books.length books (searchedIdxOf books hl)
        (componentsStateOf books hl).2
        ((componentsStateOf books hl).1, basicLinksOf books) :=
  rfl

/-- Master pipeline lemma: for a nonempty entity list with distinct
identifiers and in-range vectors, the build's repair phase connects every
node to the searched node, adds exactly `components - 1` edges, the
union-find classes after the union pass coincide with connectivity over
the pruned links, and repair touches each non-anchor node at most once. -/
theorem build_pipeline (books : List BookNode) (hl : Option String)
    (hnodup : (books.map BookNode.id).Nodup)
    (hrange : ∀ b ∈ books, ScoresInRange b.sentimentScores)
    (hn : 1 ≤ books.length) :
    (∀ i, i < books.length →
      LinkConn (repairedLinksOf books hl) (idOf books i)
        (idOf books (searchedIdxOf books hl))) ∧
    (repairedLinksOf books hl).length
      = (basicLinksOf books).length + (componentsAfterPruning books - 1) ∧
    (∀ a b, a < books.length → b < books.length →
      ((ufFind books.length (p1Of books) a).2
        = (ufFind books.length (p1Of books) b).2
        ↔ LinkConn (basicLinksOf books) (idOf books a) (idOf books b))) ∧
    (∀ x, x < books.length → x ≠ searchedIdxOf books hl →
      ((repairedLinksOf books hl).drop (basicLinksOf books).length).countP
        (fun l => decide (l.source = idOf books x ∨ l.target = idOf books x))
        ≤ 1) := by
  have hg0 : UFGood books.length (fun i => i) :=
    ⟨fun i hi => hi, fun i _ => ⟨i, Rooted.self_iff.mpr rfl⟩⟩
  have hconn0 : ∀ a b, a < books.length → b < books.length →
      rootEq (fun i : Nat => i) a b →
      LinkConn (basicLinksOf books) (idOf books a) (idOf books b) := by
    intro a b ha hb hr
    obtain ⟨r, hra, hrb⟩ := hr
    have h1 : a = r := (Rooted.self_iff.mpr rfl).det hra
    have h2 : b = r := (Rooted.self_iff.mpr rfl).det hrb
    rw [h1, ← h2]
    exact Relation.ReflTransGen.refl
  obtain ⟨hg1, hconn1, hmono1, hmerged1⟩ :=
    unionLinks_invariant books (basicLinksOf books) (basicLinksOf books)
      (fun i => i) (fun l h => h) hg0 hconn0
  have hp1 : unionLinks books.length books (basicLinksOf books)
      (fun i => i) = p1Of books := rfl
  rw [hp1] at hg1 hconn1 hmono1 hmerged1
  have hsn : searchedIdxOf books hl < books.length := searchedIdxOf_lt hn hl
  obtain ⟨hfroot, hgf, hsamef⟩ := ufFind_roots hg1 hsn
  have hsf : ufFind books.length (p1Of books) (searchedIdxOf books hl)
      = searchedFindOf books hl := rfl
  rw [hsf] at hfroot hgf hsamef
  have hcol := @collectGo_spec books.length (searchedFindOf books hl).2
    (List.range books.length) (searchedFindOf books hl).1 []
    (fun i hi => List.mem_range.mp hi) hgf List.nodup_nil
    (fun c hc => absurd hc (List.not_mem_nil c))
  rw [← collectComponents_eq_go] at hcol
  have hcs : collectComponents books.length (searchedFindOf books hl).2
      (searchedFindOf books hl).1 = componentsStateOf books hl := rfl
  rw [hcs] at hcol
  obtain ⟨hgc, hsamec, hndS, hSprops, _, hScomplete⟩ := hcol
  have hsame1c : SameRoots books.length (p1Of books)
      (componentsStateOf books hl).1 := hsamef.trans hsamec
  have hrep := repairGo_spec books (searchedIdxOf books hl)
    (searchedFindOf books hl).2 hrange hsn
    (componentsStateOf books hl).2 (componentsStateOf books hl).1
    (basicLinksOf books) hgc
    ((hsame1c _ hsn _).mp hfroot)
    hndS
    (fun c hc =>
      ⟨(hSprops c hc).1, (hSprops c hc).2.1,
        (hsamec _ (hSprops c hc).1 _).mp (hSprops c hc).2.2⟩)
    (fun i hi r hr =>
      hScomplete i (List.mem_range.mpr hi) r ((hsamec i hi r).mpr hr))
    (fun a b ha hb hr => by
      obtain ⟨r, hra, hrb⟩ := hr
      exact hconn1 a b ha hb
        ⟨r, (hsame1c a ha r).mpr hra, (hsame1c b hb r).mpr hrb⟩)
  rw [← repairStateOf_eq_go] at hrep
  obtain ⟨hgfin, hfinroot, hfinconn, added, bs, hadd, haddlen, haddmap,
    hbsnd, hbsprops⟩ := hrep
  have hrepaired : repairedLinksOf books hl = (repairStateOf books hl).2 :=
    rfl
  have hcomp : componentsAfterPruning books
      = (componentsStateOf books hl).2.length + 1 := by
    unfold componentsAfterPruning
    rw [← List.card_toFinset]
    have himg : ((List.range books.length).map
        (fun i => (ufFind books.length (p1Of books) i).2)).toFinset
        = insert ((searchedFindOf books hl).2)
            (componentsStateOf books hl).2.toFinset := by
      ext r
      simp only [List.mem_toFinset, List.mem_map, Finset.mem_insert]
      constructor
      · rintro ⟨i, hir, hieq⟩
        have hin : i < books.length := List.mem_range.mp hir
        have hri : Rooted (p1Of books) i r :=
          hieq ▸ (ufFind_roots hg1 hin).1
        have hri2 : Rooted (searchedFindOf books hl).1 i r :=
          (hsamef i hin r).mp hri
        rcases hScomplete i hir r hri2 with h | h
        · exact Or.inl h
        · exact Or.inr h
      · rintro (h | h)
        · refine ⟨searchedIdxOf books hl, List.mem_range.mpr hsn, h ▸ ?_⟩
          rfl
        · obtain ⟨hcl, hcsr, hcroot⟩ := hSprops r h
          refine ⟨r, List.mem_range.mpr hcl, ?_⟩
          have h1 : Rooted (p1Of books) r r := (hsamef r hcl r).mpr hcroot
          exact ((ufFind_roots hg1 hcl).1).det h1
    rw [himg, Finset.card_insert_of_not_mem ?_,
      List.toFinset_card_of_nodup hndS]
    intro hcon
    exact (hSprops _ (List.mem_toFinset.mp hcon)).2.1 rfl
  refine ⟨?_, ?_, ?_, ?_⟩
  · intro i hi
    exact hfinconn i (searchedIdxOf books hl) hi hsn (hfinroot i hi)
  · rw [hrepaired, hadd, List.length_append, haddlen, hcomp]
    omega
  · intro a b ha hb
    constructor
    · intro heq
      refine hconn1 a b ha hb ⟨(ufFind books.length (p1Of books) b).2,
        heq ▸ (ufFind_roots hg1 ha).1, (ufFind_roots hg1 hb).1⟩
    · intro hc
      obtain ⟨r, hra, hrb⟩ := LinkConn_to_rootEq hnodup hg1
        (fun l hlm si ti hsi hti => hmerged1 l hlm si ti hsi hti)
        a b ha hb hc
      have h1 : (ufFind books.length (p1Of books) a).2 = r :=
        ((ufFind_roots hg1 ha).1).det hra
      have h2 : (ufFind books.length (p1Of books) b).2 = r :=
        ((ufFind_roots hg1 hb).1).det hrb
      rw [h1, h2]
  · intro x hx hxs
    have hdrop : (repairedLinksOf books hl).drop (basicLinksOf books).length
        = added := by
      rw [hrepaired, hadd]
      exact List.drop_left _ _
    rw [hdrop]
    have hstep1 : added.countP
        (fun l => decide (l.source = idOf books x ∨ l.target = idOf books x))
        = (added.map (fun l => (l.source, l.target))).countP
          (fun pr => decide (pr.1 = idOf books x ∨ pr.2 = idOf books x)) := by
      rw [List.countP_map]
      rfl
    rw [hstep1, haddmap, List.countP_map]
    have hstep2 : ((fun pr : String × String =>
          decide (pr.1 = idOf books x ∨ pr.2 = idOf books x)) ∘
          (fun b => (idOf books b, idOf books (searchedIdxOf books hl))))
        = fun b => decide (idOf books b = idOf books x ∨
            idOf books (searchedIdxOf books hl) = idOf books x) := rfl
    rw [hstep2]
    have hcongr : bs.countP (fun b => decide (idOf books b = idOf books x ∨
        idOf books (searchedIdxOf books hl) = idOf books x))
        = bs.countP (fun b => decide (b = x)) := by
      apply List.countP_congr
      intro b hb
      obtain ⟨hbn, _, _⟩ := hbsprops b hb
      simp only [decide_eq_true_eq]
      constructor
      · rintro (h | h)
        · exact idOf_inj hnodup hbn hx h
        · exact absurd (idOf_inj hnodup hsn hx h) (Ne.symm hxs)
      · intro h
        exact Or.inl (h ▸ rfl)
    rw [hcongr]
    exact countP_eq_le_one hbsnd x

/-- C1 (claim): for a nonempty entity list with distinct identifiers and
sentiment vectors in range, and an anchor id present in the list, every
node of the built graph is connected to the anchor through the returned
edges. -/
theorem claim_C1_anchor_connectivity (books : List BookNode)
    (anchorId : String)
    (hnodup : (books.map BookNode.id).Nodup)
    (hrange : ∀ b ∈ books, ScoresInRange b.sentimentScores)
    (hn : 1 ≤ books.length)
    (hanchor : anchorId ∈ books.map BookNode.id) :
    ∀ b ∈ books,
      LinkConn (bookGraphData books (some anchorId)).2 b.id anchorId := by
  have hne : books.length ≠ 0 := by omega
  rw [bookGraphData_eq books (some anchorId) hne]
  obtain ⟨hconn, _, _, _⟩ :=
    build_pipeline books (some anchorId) hnodup hrange hn
  obtain ⟨bk, hbk, hbkid⟩ := List.mem_map.mp hanchor
  obtain ⟨k, hk, hbkk⟩ := List.mem_iff_getElem.mp hbk
  have hidk : idOf books k = anchorId := by
    unfold idOf
    rw [List.getD_eq_getElem _ _ hk, hbkk, hbkid]
  intro b hb
  obtain ⟨i, hi, hbi⟩ := List.mem_iff_getElem.mp hb
  have hidi : idOf books i = b.id := by
    unfold idOf
    rw [List.getD_eq_getElem _ _ hi, hbi]
  have h1 := hconn i hi
  have h2 := hconn k hk
  rw [hidi] at h1
  rw [hidk] at h2
  exact h1.trans h2.symm

/-- C10 (claim): when the supplied anchor identifier matches no entity, the
build silently falls back to index `0` as the anchor, and repair connects
every node to the first entity. -/
theorem claim_C10_unknown_anchor_fallback (books : List BookNode)
    (q : String)
    (hnodup : (books.map BookNode.id).Nodup)
    (hrange : ∀ b ∈ books, ScoresInRange b.sentimentScores)
    (hn : 1 ≤ books.length)
    (habsent : q ∉ books.map BookNode.id) :
    searchedIdxOf books (some q) = 0 ∧
    ∀ b ∈ books,
      LinkConn (bookGraphData books (some q)).2 b.id (idOf books 0) := by
  refine ⟨searchedIdxOf_of_absent habsent, ?_⟩
  have hne : books.length ≠ 0 := by omega
  rw [bookGraphData_eq books (some q) hne]
  obtain ⟨hconn, _, _, _⟩ := build_pipeline books (some q) hnodup hrange hn
  intro b hb
  obtain ⟨i, hi, hbi⟩ := List.mem_iff_getElem.mp hb
  have hidi : idOf books i = b.id := by
    unfold idOf
    rw [List.getD_eq_getElem _ _ hi, hbi]
  have h1 := hconn i hi
  rw [searchedIdxOf_of_absent habsent, hidi] at h1
  exact h1

theorem selectedPairsOf_degree_le (books : List BookNode) :
    ∀ x, pairDegree (selectedPairsOf books) x ≤ 3 := by
  intro x
  unfold selectedPairsOf
  refine greedySelect_degree (sortedPairsOf books) (fun _ => 0) []
    (fun y => ?_) (fun y => by show (0 : Nat) ≤ 3; omega) x
  unfold pairDegree
  rfl

/-- C3 (claim): no node exceeds degree 3 in the greedy-selection phase, and
(for lists with distinct ids and in-range vectors) the repair phase adds at
most one edge touching any given non-anchor node. -/
theorem claim_C3_degree_caps (books : List BookNode) (hl : Option String)
    (hnodup : (books.map BookNode.id).Nodup)
    (hrange : ∀ b ∈ books, ScoresInRange b.sentimentScores) :
    (∀ x, pairDegree (selectedPairsOf books) x ≤ 3) ∧
    (∀ x, x < books.length → x ≠ searchedIdxOf books hl →
      ((repairedLinksOf books hl).drop (basicLinksOf books).length).countP
        (fun l => decide (l.source = idOf books x ∨ l.target = idOf books x))
        ≤ 1) := by
  refine ⟨selectedPairsOf_degree_le books, ?_⟩
  by_cases hn : 1 ≤ books.length
  · exact (build_pipeline books hl hnodup hrange hn).2.2.2
  · intro x hx
    omega

theorem selectedPairsOf_nil : selectedPairsOf [] = [] := by
  unfold selectedPairsOf
  have h : sortedPairsOf ([] : List BookNode) = [] := by
    unfold sortedPairsOf jsSortBy
    rw [allPairsOf_nil_of_le_one (by simp)]
    exact List.mergeSort_nil
  rw [h]
  rfl

theorem prunedPairsOf_nil : prunedPairsOf [] = [] := by
  unfold prunedPairsOf jsSortBy
  rw [selectedPairsOf_nil, List.mergeSort_nil, List.take_nil]

theorem basicLinksOf_nil : basicLinksOf [] = [] := by
  unfold basicLinksOf
  rw [prunedPairsOf_nil]
  rfl

theorem repairedLinksOf_nil (hl : Option String) :
    repairedLinksOf [] hl = [] := by
  have hS : (componentsStateOf [] hl).2 = [] := rfl
  unfold repairedLinksOf
  rw [repairStateOf_eq_go, hS]
  show ((componentsStateOf [] hl).1, basicLinksOf []).2 = []
  exact basicLinksOf_nil

/-- C2 (claim): the retained edge count after pruning equals
`ceil(0.7 * min(selected, floor(n*1.5)))`, repair adds exactly
`components_after_pruning - 1` edges, and union-find classes after the
union pass coincide with connectivity over the pruned links. -/
theorem claim_C2_edge_counts (books : List BookNode) (hl : Option String)
    (hnodup : (books.map BookNode.id).Nodup)
    (hrange : ∀ b ∈ books, ScoresInRange b.sentimentScores) :
    (prunedPairsOf books).length
      = Nat.ceil ((0.7 : ℚ) * (min (selectedPairsOf books).length
          (targetTotalConnections books.length) : ℕ)) ∧
    (repairedLinksOf books hl).length
      = (basicLinksOf books).length + (componentsAfterPruning books - 1) ∧
    (∀ a b, a < books.length → b < books.length →
      ((ufFind books.length (p1Of books) a).2
          = (ufFind books.length (p1Of books) b).2
        ↔ LinkConn (basicLinksOf books) (idOf books a) (idOf books b))) := by
  refine ⟨prunedPairsOf_length books, ?_, ?_⟩
  · by_cases hn : 1 ≤ books.length
    · exact (build_pipeline books hl hnodup hrange hn).2.1
    · have hb : books = [] := List.length_eq_zero.mp (by omega)
      subst hb
      rw [repairedLinksOf_nil, basicLinksOf_nil]
      rfl
  · by_cases hn : 1 ≤ books.length
    · exact (build_pipeline books hl hnodup hrange hn).2.2.1
    · intro a b ha _
      exact absurd ha (by omega)

/-- A concrete in-range book used by the witnesses. -/
def bookA : BookNode :=
  ⟨"a", "Book A", "Author A", "Sci-Fi", 1990, none, none, ⟨1, 0, 0, 0, 0⟩⟩

/-- A second concrete in-range book used by the witnesses. -/
def bookB : BookNode :=
  ⟨"b", "Book B", "Author B", "Sci-Fi", 1991, none, none, ⟨0, 1, 0, 0, 0⟩⟩

theorem twoBooks_nodup : ([bookA, bookB].map BookNode.id).Nodup := by
  simp [bookA, bookB]

theorem twoBooks_range :
    ∀ b ∈ [bookA, bookB], ScoresInRange b.sentimentScores := by
  intro b hb
  rcases List.mem_cons.mp hb with rfl | hb
  · unfold ScoresInRange bookA
    norm_num
  · rcases List.mem_cons.mp hb with rfl | hb
    · unfold ScoresInRange bookB
      norm_num
    · exact absurd hb (List.not_mem_nil b)

/-- C1 witness: a concrete two-book list with distinct ids, in-range
vectors, and anchor id "a" present; the theorem applies to it. -/
theorem claim_C1_anchor_connectivity_witness :
    (([bookA, bookB].map BookNode.id).Nodup ∧
      (∀ b ∈ [bookA, bookB], ScoresInRange b.sentimentScores) ∧
      1 ≤ ([bookA, bookB] : List BookNode).length ∧
      "a" ∈ [bookA, bookB].map BookNode.id) ∧
    (∀ b ∈ [bookA, bookB],
      LinkConn (bookGraphData [bookA, bookB] (some "a")).2 b.id "a") := by
  have h3 : 1 ≤ ([bookA, bookB] : List BookNode).length := by simp
  have h4 : "a" ∈ [bookA, bookB].map BookNode.id := by simp [bookA]
  exact ⟨⟨twoBooks_nodup, twoBooks_range, h3, h4⟩,
    claim_C1_anchor_connectivity _ _ twoBooks_nodup twoBooks_range h3 h4⟩

/-- C2 witness: the concrete two-book list satisfies the hypotheses and the
theorem applies to it. -/
theorem claim_C2_edge_counts_witness :
    (([bookA, bookB].map BookNode.id).Nodup ∧
      (∀ b ∈ [bookA, bookB], ScoresInRange b.sentimentScores)) ∧
    ((prunedPairsOf [bookA, bookB]).length
      = Nat.ceil ((0.7 : ℚ) * (min (selectedPairsOf [bookA, bookB]).length
          (targetTotalConnections ([bookA, bookB] : List BookNode).length)
            : ℕ)) ∧
    (repairedLinksOf [bookA, bookB] none).length
      = (basicLinksOf [bookA, bookB]).length
        + (componentsAfterPruning [bookA, bookB] - 1) ∧
    (∀ a b, a < ([bookA, bookB] : List BookNode).length →
      b < ([bookA, bookB] : List BookNode).length →
      ((ufFind ([bookA, bookB] : List BookNode).length
          (p1Of [bookA, bookB]) a).2
          = (ufFind ([bookA, bookB] : List BookNode).length
            (p1Of [bookA, bookB]) b).2
        ↔ LinkConn (basicLinksOf [bookA, bookB]) (idOf [bookA, bookB] a)
            (idOf [bookA, bookB] b)))) :=
  ⟨⟨twoBooks_nodup, twoBooks_range⟩,
    claim_C2_edge_counts [bookA, bookB] none twoBooks_nodup twoBooks_range⟩

/-- C3 witness: the concrete two-book list satisfies the hypotheses and the
theorem applies to it. -/
theorem claim_C3_degree_caps_witness :
    (([bookA, bookB].map BookNode.id).Nodup ∧
      (∀ b ∈ [bookA, bookB], ScoresInRange b.sentimentScores)) ∧
    ((∀ x, pairDegree (selectedPairsOf [bookA, bookB]) x ≤ 3) ∧
    (∀ x, x < ([bookA, bookB] : List BookNode).length →
      x ≠ searchedIdxOf [bookA, bookB] none →
      ((repairedLinksOf [bookA, bookB] none).drop
          (basicLinksOf [bookA, bookB]).length).countP
        (fun l => decide (l.source = idOf [bookA, bookB] x ∨
          l.target = idOf [bookA, bookB] x)) ≤ 1)) :=
  ⟨⟨twoBooks_nodup, twoBooks_range⟩,
    claim_C3_degree_caps [bookA, bookB] none twoBooks_nodup twoBooks_range⟩

/-- C10 witness: the identifier "zzz" matches no book of the concrete list;
the theorem applies to it. -/
theorem claim_C10_unknown_anchor_fallback_witness :
    (([bookA, bookB].map BookNode.id).Nodup ∧
      (∀ b ∈ [bookA, bookB], ScoresInRange b.sentimentScores) ∧
      1 ≤ ([bookA, bookB] : List BookNode).length ∧
      "zzz" ∉ [bookA, bookB].map BookNode.id) ∧
    (searchedIdxOf [bookA, bookB] (some "zzz") = 0 ∧
      ∀ b ∈ [bookA, bookB],
        LinkConn (bookGraphData [bookA, bookB] (some "zzz")).2 b.id
          (idOf [bookA, bookB] 0)) := by
  have h3 : 1 ≤ ([bookA, bookB] : List BookNode).length := by simp
  have h4 : "zzz" ∉ [bookA, bookB].map BookNode.id := by simp [bookA, bookB]
  exact ⟨⟨twoBooks_nodup, twoBooks_range, h3, h4⟩,
    claim_C10_unknown_anchor_fallback _ _ twoBooks_nodup twoBooks_range h3 h4⟩

theorem selectedPairsOf_of_le_one {books : List BookNode}
    (h : books.length ≤ 1) : selectedPairsOf books = [] := by
  unfold selectedPairsOf
  have hs : sortedPairsOf books = [] := by
    unfold sortedPairsOf jsSortBy
    rw [allPairsOf_nil_of_le_one h]
    exact List.mergeSort_nil
  rw [hs]
  rfl

theorem prunedPairsOf_of_le_one {books : List BookNode}
    (h : books.length ≤ 1) : prunedPairsOf books = [] := by
  unfold prunedPairsOf jsSortBy
  rw [selectedPairsOf_of_le_one h, List.mergeSort_nil, List.take_nil]

theorem basicLinksOf_of_le_one {books : List BookNode}
    (h : books.length ≤ 1) : basicLinksOf books = [] := by
  unfold basicLinksOf
  rw [prunedPairsOf_of_le_one h]
  rfl

theorem repairedLinksOf_of_single (b : BookNode) :
    repairedLinksOf [b] none = [] := by
  have hbasic : basicLinksOf [b] = [] := basicLinksOf_of_le_one (by simp)
  have hp1 : p1Of [b] = fun i => i := by
    unfold p1Of
    rw [hbasic]
    rfl
  have hsf : searchedFindOf [b] none = (fun i => i, 0) := by
    unfold searchedFindOf
    rw [hp1]
    rfl
  have hS : (componentsStateOf [b] none).2 = [] := by
    unfold componentsStateOf
    rw [hsf]
    rfl
  unfold repairedLinksOf
  rw [repairStateOf_eq_go, hS]
  show ((componentsStateOf [b] none).1, basicLinksOf [b]).2 = []
  exact hbasic

/-- C5 amended: the build performs no validation and cannot fail — for
every input, malformed vectors included, it returns the input entities
unchanged (no clamping, no error path). -/
theorem claim_C5_no_validation_total (books : List BookNode)
    (hl : Option String) : (bookGraphData books hl).1 = books := by
  by_cases h : books.length = 0
  · have hb : books = [] := List.length_eq_zero.mp h
    subst hb
    rfl
  · rw [bookGraphData_eq books hl h]

/-- A book whose sentiment vector has out-of-range components. -/
def badBook : BookNode :=
  ⟨"bad", "Bad Book", "Nobody", "Sci-Fi", 2000, none, none,
    ⟨2, -1, 0.5, 0.5, 0.5⟩⟩

/-- C5 counterexample: on an input whose vector is out of range the build
does not raise any error — it returns the normal graph with the
out-of-range components untouched. -/
theorem claim_C5_counterexample :
    bookGraphData [badBook] none = ([badBook], []) ∧
      badBook.sentimentScores.moody = 2 ∧
      ¬ ScoresInRange badBook.sentimentScores := by
  refine ⟨?_, rfl, ?_⟩
  · rw [bookGraphData_eq [badBook] none (by simp)]
    rw [repairedLinksOf_of_single badBook]
  · intro hcon
    have h1 := hcon.1.2
    norm_num [badBook] at h1
